import Mathlib

/-!
Verification of the 10-K risk-factor-title extractor
(`src/rfd_title_extractor.py`).

The embedding models the parsed markup document as an ordered tree of
elements (`Node`): the markup parser (BeautifulSoup/lxml) is the external
MarkupTree-builder collaborator, so the tree itself is the input.  All
text is represented as `List Char`; the Python string operations used by
the source (`str.split`, `str.strip`, `str.lower`, `re.sub(r"\s+", " ", _)`,
substring tests, `str.isupper`) are embedded character by character below.
The three core functions `extract_reporting_date`, `get_item_1a` and
`extract_risk_factor_titles` are translated from the source line by line.
-/

namespace RFD

/-! ## Python string semantics -/

/-- Whitespace as recognised by the Python functions `str.split` and regex `\s`
(ASCII whitespace plus the file-separator block, NEL and NBSP). -/
def pyIsSpace (c : Char) : Bool :=
  c = ' ' || c = '\t' || c = '\n' || c = '\r' || c = '\x0b' || c = '\x0c' ||
  c = '\x1c' || c = '\x1d' || c = '\x1e' || c = '\x1f' || c = '\x85' || c = '\xa0'

/-- Helper for `pyWords`: accumulates the current (reversed) word. -/
def pyWordsAux : List Char → List Char → List (List Char)
  | [], acc => if acc = [] then [] else [acc.reverse]
  | c :: rest, acc =>
    if pyIsSpace c then
      if acc = [] then pyWordsAux rest [] else acc.reverse :: pyWordsAux rest []
    else
      pyWordsAux rest (c :: acc)

/-- Python `text.split()`: maximal runs of non-whitespace characters. -/
def pyWords (l : List Char) : List (List Char) :=
  pyWordsAux l []

/-- Number of words, `len(text.split())`. -/
def wordCount (l : List Char) : Nat :=
  (pyWords l).length

/-- Join a list of words with single spaces, `" ".join(ws)`. -/
def joinSpace : List (List Char) → List Char
  | [] => []
  | [w] => w
  | w :: ws => w ++ ' ' :: joinSpace ws

/-- Python `re.sub(r"\s+", " ", text).strip()` — equivalently
`" ".join(text.split())`: collapse whitespace runs and strip the ends. -/
def collapse (l : List Char) : List Char :=
  joinSpace (pyWords l)

/-- Helper for `subWs`: the flag records whether the previous character
was whitespace (in which case further whitespace is absorbed). -/
def subWsAux : List Char → Bool → List Char
  | [], _ => []
  | c :: rest, inWs =>
    if pyIsSpace c then
      if inWs then subWsAux rest true else ' ' :: subWsAux rest true
    else c :: subWsAux rest false

/-- Python `re.sub(r"\s+", " ", text)` without the strip: every whitespace run
becomes a single space, including at the ends. -/
def subWs (l : List Char) : List Char :=
  subWsAux l false

/-- Python `str.strip()`. -/
def pyStrip (l : List Char) : List Char :=
  ((l.dropWhile pyIsSpace).reverse.dropWhile pyIsSpace).reverse

/-- Python `str.lower()` (ASCII letters). -/
def lowerL (l : List Char) : List Char :=
  l.map Char.toLower

/-- Python `str.replace(" ", "")`: remove space characters (only `' '`). -/
def removeSpaces (l : List Char) : List Char :=
  l.filter (fun c => c ≠ ' ')

/-- Python `str.isupper()`: at least one cased character and no cased
character is lowercase (ASCII letters are the cased characters here). -/
def isUpperPy (l : List Char) : Bool :=
  l.any (fun c => c.isAlpha) && l.all (fun c => !c.isAlpha || c.isUpper)

/-- Python `text[-1] in [":", "."]` (on a nonempty text; `false` on empty). -/
def endsPunct (l : List Char) : Bool :=
  match l.getLast? with
  | some c => c = ':' || c = '.'
  | none => false

/-- Python `pat in s`: substring containment. -/
def containsSub (pat l : List Char) : Bool :=
  l.tails.any (fun t => pat.isPrefixOf t)

/-- Python `str.rstrip(".")`: drop trailing `'.'` characters. -/
def rstripDot (l : List Char) : List Char :=
  (l.reverse.dropWhile (fun c => c = '.')).reverse

/-- Case-insensitive prefix test (ASCII), as under `re.IGNORECASE`. -/
def ciMatch : List Char → List Char → Option (List Char)
  | [], l => some l
  | _, [] => none
  | p :: ps, c :: cs => if p.toLower = c.toLower then ciMatch ps cs else none

/-! ## The markup tree -/

mutual

/-- A node of the parsed markup tree.  A tag carries its name, the value
of its `style` attribute (`""` when absent — the only attribute the
source ever reads) and its children; a `txt` node is a text node.
Equality is structural, exactly like the BeautifulSoup method `Tag.__eq__`. -/
inductive Node where
  | tag (name : List Char) (style : List Char) (children : NodeL)
  | txt (s : List Char)

/-- A list of sibling nodes (a separate inductive so that all tree
recursions are structural). -/
inductive NodeL where
  | nil
  | cons (hd : Node) (tl : NodeL)

end

/-- Convert a sibling list to an ordinary list. -/
def NodeL.toList : NodeL → List Node
  | NodeL.nil => []
  | NodeL.cons hd tl => hd :: NodeL.toList tl

/-- Build a sibling list from an ordinary list. -/
def NodeL.ofList : List Node → NodeL
  | [] => NodeL.nil
  | hd :: tl => NodeL.cons hd (NodeL.ofList tl)

mutual

/-- Structural equality on nodes (the BeautifulSoup method `Tag.__eq__`). -/
def nodeBeq : Node → Node → Bool
  | Node.txt s, Node.txt t => s == t
  | Node.tag n1 s1 c1, Node.tag n2 s2 c2 => n1 == n2 && s1 == s2 && nodeBeqL c1 c2
  | _, _ => false

/-- Structural equality on sibling lists. -/
def nodeBeqL : NodeL → NodeL → Bool
  | NodeL.nil, NodeL.nil => true
  | NodeL.cons x xs, NodeL.cons y ys => nodeBeq x y && nodeBeqL xs ys
  | _, _ => false

end

mutual

theorem nodeBeq_iff : ∀ a b : Node, nodeBeq a b = true ↔ a = b
  | Node.txt s, Node.txt t => by simp [nodeBeq]
  | Node.txt _, Node.tag _ _ _ => by simp [nodeBeq]
  | Node.tag _ _ _, Node.txt _ => by simp [nodeBeq]
  | Node.tag n1 s1 c1, Node.tag n2 s2 c2 => by
    simp only [nodeBeq, Bool.and_eq_true, beq_iff_eq, nodeBeqL_iff c1 c2,
      Node.tag.injEq]
    tauto

theorem nodeBeqL_iff : ∀ a b : NodeL, nodeBeqL a b = true ↔ a = b
  | NodeL.nil, NodeL.nil => by simp [nodeBeqL]
  | NodeL.nil, NodeL.cons _ _ => by simp [nodeBeqL]
  | NodeL.cons _ _, NodeL.nil => by simp [nodeBeqL]
  | NodeL.cons x xs, NodeL.cons y ys => by
    simp only [nodeBeqL, Bool.and_eq_true, nodeBeq_iff x y, nodeBeqL_iff xs ys,
      NodeL.cons.injEq]

end

instance : DecidableEq Node := fun a b =>
  decidable_of_iff (nodeBeq a b = true) (nodeBeq_iff a b)

instance : DecidableEq NodeL := fun a b =>
  decidable_of_iff (nodeBeqL a b = true) (nodeBeqL_iff a b)

mutual

/-- The text-node strings below a node, in document order
(`Tag._all_strings`). -/
def stringsOf : Node → List (List Char)
  | Node.txt s => [s]
  | Node.tag _ _ cs => stringsNL cs

/-- The text-node strings of a sibling forest, in document order. -/
def stringsNL : NodeL → List (List Char)
  | NodeL.nil => []
  | NodeL.cons hd tl => stringsOf hd ++ stringsNL tl

end

/-- BeautifulSoup `tag.get_text(" ", strip=True)`: strip each string, drop the ones that
become empty, join with single spaces. -/
def getText (n : Node) : List Char :=
  joinSpace (((stringsOf n).map pyStrip).filter (fun s => s ≠ []))

/-- The children of a node as an ordinary list (empty for text nodes). -/
def childrenOf : Node → List Node
  | Node.txt _ => []
  | Node.tag _ _ cs => NodeL.toList cs

/-- The children of a node as a sibling list. -/
def childrenNL : Node → NodeL
  | Node.txt _ => NodeL.nil
  | Node.tag _ _ cs => cs

/-- The name of a node (empty for text nodes). -/
def nameOf : Node → List Char
  | Node.txt _ => []
  | Node.tag n _ _ => n

/-- The style attribute of a node (the style attribute lookup). -/
def styleOf : Node → List Char
  | Node.txt _ => []
  | Node.tag _ s _ => s

mutual

/-- A tag node together with its descendant tags, in document order
(empty for a text node). -/
def descSelf : Node → List Node
  | Node.txt _ => []
  | Node.tag n s cs => Node.tag n s cs :: descTagsNL cs

/-- All tag nodes of a sibling forest in document (pre-)order, each
represented by its subtree — `find_all(True, recursive=True)` run on the
parent of the forest. -/
def descTagsNL : NodeL → List Node
  | NodeL.nil => []
  | NodeL.cons hd tl => descSelf hd ++ descTagsNL tl

end

/-- An element occurrence inside a document: the chain of its ancestors
(nearest first, ending at the document root) and its own subtree. -/
abbrev Elem := List Node × Node

mutual

/-- A tag node (with ancestor chain `ancs`) together with its descendant
tags and their ancestor chains, in document order. -/
def descSelfA : List Node → Node → List Elem
  | _, Node.txt _ => []
  | ancs, Node.tag n s cs =>
    (ancs, Node.tag n s cs) :: descTagsANL (Node.tag n s cs :: ancs) cs

/-- All tag nodes of a sibling forest in document order together with
their ancestor chains; `ancs` are the ancestors of the forest members. -/
def descTagsANL : List Node → NodeL → List Elem
  | _, NodeL.nil => []
  | ancs, NodeL.cons hd tl => descSelfA ancs hd ++ descTagsANL ancs tl

end

/-- The flattened text of an element occurrence. -/
def textOf (e : Elem) : List Char :=
  getText e.2

mutual

/-- Serialisation of a node back to markup (`str(tag)`). -/
def render : Node → List Char
  | Node.txt s => s
  | Node.tag n st cs =>
    '<' :: n ++ (if st = [] then [] else " style=\"".toList ++ st ++ ['"']) ++
      '>' :: renderNL cs ++ "</".toList ++ n ++ ['>']

/-- Serialisation of a sibling forest. -/
def renderNL : NodeL → List Char
  | NodeL.nil => []
  | NodeL.cons hd tl => render hd ++ renderNL tl

end

/-- Shorthand for building a tag node from string literals. -/
def nd (name style : String) (cs : List Node) : Node :=
  Node.tag name.toList style.toList (NodeL.ofList cs)

/-- Shorthand for building a text node from a string literal. -/
def tx (s : String) : Node :=
  Node.txt s.toList

/-! ## The `item 1a` / `item 1b` heading patterns

`re.compile(r"item(?:\s|&nbsp;|<[^>]+>)*1a\.?", re.IGNORECASE)` and the
same with `1b`.  The separator alternatives are mutually exclusive on
their first character and none of them can start with `'1'`, so greedy
deterministic consumption coincides with the regex semantics. -/

/-- The rest after one `<[^>]+>` separator at the head of `rest` (after
the `'<'` itself), when present. -/
def afterGt (rest : List Char) : Option (List Char) :=
  match rest.drop (rest.takeWhile (fun d => d ≠ '>')).length with
  | '>' :: r => if (rest.takeWhile (fun d => d ≠ '>')) = [] then none else some r
  | _ => none

/-- Fuelled worker for `consumeSeps`; every step consumes at least one
character, so fuel equal to the input length is always enough. -/
def consumeSepsF : Nat → List Char → List Char
  | _, [] => []
  | 0, l => l
  | fuel + 1, c :: rest =>
    if pyIsSpace c then consumeSepsF fuel rest
    else if c = '&' then
      match ciMatch "nbsp;".toList rest with
      | some r => consumeSepsF fuel r
      | none => c :: rest
    else if c = '<' then
      match afterGt rest with
      | some r => consumeSepsF fuel r
      | none => c :: rest
    else c :: rest

/-- Consume a maximal run of `(?:\s|&nbsp;|<[^>]+>)` separators. -/
def consumeSeps (l : List Char) : List Char :=
  consumeSepsF l.length l

/-- Try to match `item(?:\s|&nbsp;|<[^>]+>)*1<tc>\.?` at the head of the
input (`tc` is the letter a or b); returns the rest after a greedy match. -/
def matchItemAt (tc : Char) (l : List Char) : Option (List Char) :=
  match ciMatch "item".toList l with
  | none => none
  | some r1 =>
    match consumeSeps r1 with
    | '1' :: d :: r2 =>
      if d.toLower = tc then
        match r2 with
        | '.' :: r3 => some r3
        | _ => some r2
      else none
    | _ => none

/-- Regex `pattern.search(text)` as a boolean: the pattern occurs somewhere. -/
def searchItem (tc : Char) : List Char → Bool
  | [] => false
  | c :: rest => (matchItemAt tc (c :: rest)).isSome || searchItem tc rest

/-- Regex `pattern.fullmatch(text)` as a boolean: the whole text matches. -/
def fullItem (tc : Char) (l : List Char) : Bool :=
  matchItemAt tc l == some []

/-! ## `get_item_1a` (the SectionBoundaryLocator) -/

/-- Line 192, `elements = soup.find_all(True, recursive=True)` for a document whose
root node is `root` (the root plays the part of the soup object and is not an
element itself). -/
def docElems (root : Node) : List Elem :=
  descTagsANL [root] (childrenNL root)

/-- Line 205: the heading test for the section start —
`item_1a_pattern.fullmatch(text) or (item_1a_pattern.search(text) and
len(text.split()) <= HEADER_LEN)` with `HEADER_LEN = 5`. -/
def startCondA (text : List Char) : Bool :=
  fullItem 'a' text || (searchItem 'a' text && wordCount text ≤ 5)

/-- Lines 209-215: scan the lookahead window for an element whose text has
more than `NEXT_CONTENT_LEN = 10` words (empty texts are skipped). -/
def hasContentLoop : List Elem → Bool
  | [] => false
  | e :: rest =>
    let t := textOf e
    if t = [] then hasContentLoop rest
    else if wordCount t > 10 then true
    else hasContentLoop rest

/-- Lines 203-219: find the index of the first element that passes the
heading test and whose window `elements[i:i+10]` contains content. -/
def findStartAux : List Elem → Nat → Option Nat
  | [], _ => none
  | e :: rest, i =>
    if startCondA (textOf e) && hasContentLoop ((e :: rest).take 10) then some i
    else findStartAux rest (i + 1)

/-- Line 229: the section-end test — `item_1b_pattern.search(text) and
len(text.split()) < NEXT_CONTENT_LEN`. -/
def endCond1b (text : List Char) : Bool :=
  searchItem 'b' text && wordCount text < 10

/-- Lines 226-231: collect the tags from the start up to (excluding) the
first element that passes the section-end test. -/
def collect1b : List Elem → List Elem
  | [] => []
  | e :: rest =>
    if endCond1b (textOf e) then [] else e :: collect1b rest

/-- The element range `section_tags` computed by `get_item_1a`. -/
def sectionTagsOf (root : Node) : List Elem :=
  match findStartAux (docElems root) 0 with
  | none => []
  | some k => collect1b ((docElems root).drop k)

/-- Lines 245-250, `_smallest_common_parent`: walk the ancestor chain of
the first tag (nearest first) and take the first ancestor that occurs
(structurally) in the ancestor chain of every tag, falling back to the
parent of the first tag. -/
def smallestCommonParent (tags : List Elem) : Node :=
  match tags with
  | [] => Node.txt []
  | t0 :: _ =>
    match t0.1.find? (fun anc => tags.all fun tg => tg.1.any (nodeBeq anc)) with
    | some a => a
    | none => t0.1.headD (Node.txt [])

/-- Lines 258-269: walk the descendants of the common parent in document
order, retain the ones that occur (structurally) among the section tags,
dropping those whose lowercased collapsed text is empty or already seen. -/
def assembleGo (secNodes : List Node) : List Node → List (List Char) → List Node
  | [], _ => []
  | c :: rest, seenB =>
    if !(secNodes.any (nodeBeq c)) then assembleGo secNodes rest seenB
    else
      let norm := lowerL (collapse (getText c))
      if norm = [] then assembleGo secNodes rest seenB
      else if seenB.any (fun s => s == norm) then assembleGo secNodes rest seenB
      else c :: assembleGo secNodes rest (norm :: seenB)

/-- The retained content blocks of the located section (empty when the
section was not located or its element range is empty). -/
def itemBlocks (root : Node) : List Node :=
  match sectionTagsOf root with
  | [] => []
  | t0 :: rest =>
    let parent := smallestCommonParent (t0 :: rest)
    assembleGo ((t0 :: rest).map Prod.snd) (descTagsNL (childrenNL parent)) []

/-- Python `"\n".join(blocks)`. -/
def joinNewline : List (List Char) → List Char
  | [] => []
  | [b] => b
  | b :: bs => b ++ '\n' :: joinNewline bs

/-- Join rendered blocks with newlines and wrap them in a `div`
(line 270). -/
def wrapDiv (blocks : List Node) : List Char :=
  "<div>\n".toList ++ joinNewline (blocks.map render) ++ "\n</div>".toList

/-- Function `get_item_1a` (lines 183-270): returns the reconstructed markup of the
"Item 1A" section, or `""` when the start is not found (line 223) or the
collected range is empty (line 254). -/
def get_item_1a (root : Node) : List Char :=
  match sectionTagsOf root with
  | [] => []
  | t0 :: rest =>
    let parent := smallestCommonParent (t0 :: rest)
    wrapDiv (assembleGo ((t0 :: rest).map Prod.snd) (descTagsNL (childrenNL parent)) [])

/-! ## `extract_reporting_date` (the DateNormalizer)

The eight regular expressions of lines 147-155 are hand-compiled.  Each
`pat…` function matches its pattern at the head of the input and returns
the text captured by group 1; `searchCap` scans the start positions left
to right, which is exactly the leftmost-match rule of `re.search` (the
patterns themselves are deterministic except for `\d{1,2}` and
`(?:ended|ending)`, whose regex backtracking is reproduced explicitly). -/

/-- Regex `\s+`: at least one whitespace character, consumed greedily. -/
def wsPlus (l : List Char) : Option (List Char) :=
  let sp := l.takeWhile pyIsSpace
  if sp = [] then none else some (l.drop sp.length)

/-- A sequence of literal words joined by `\s+`, case-insensitively. -/
def litWordsCI : List (List Char) → List Char → Option (List Char)
  | [], l => some l
  | [w], l => ciMatch w l
  | w :: ws, l =>
    match ciMatch w l with
    | none => none
    | some r =>
      match wsPlus r with
      | none => none
      | some r2 => litWordsCI ws r2

/-- The tail `,\s*\d\d\d\d` of the textual date capture; returns the
consumed characters. -/
def yearTail (r : List Char) : Option (List Char) :=
  match r with
  | ',' :: r3 =>
    let sp := r3.takeWhile pyIsSpace
    let r4 := r3.drop sp.length
    let y4 := r4.take 4
    if y4.length = 4 && y4.all Char.isDigit then some (',' :: (sp ++ y4)) else none
  | _ => none

/-- The capture group `([A-Za-z]+\s+\d{1,2},\s*\d{4})` matched at the head
of the input (`\d{1,2}` backtracks from two digits to one). -/
def textCapAt (l : List Char) : Option (List Char) :=
  let letters := l.takeWhile Char.isAlpha
  if letters = [] then none
  else
    let r1 := l.drop letters.length
    let sp1 := r1.takeWhile pyIsSpace
    if sp1 = [] then none
    else
      let r2 := r1.drop sp1.length
      let dd := r2.takeWhile Char.isDigit
      let try1 : Option (List Char) :=
        if dd.length ≥ 1 then
          (yearTail (r2.drop 1)).map (fun t => letters ++ sp1 ++ r2.take 1 ++ t)
        else none
      if dd.length ≥ 2 then
        match yearTail (r2.drop 2) with
        | some t => some (letters ++ sp1 ++ r2.take 2 ++ t)
        | none => try1
      else try1

/-- The capture group `([0-9]{8})` matched at the head of the input. -/
def dig8At (l : List Char) : Option (List Char) :=
  let ds := l.take 8
  if ds.length = 8 && ds.all Char.isDigit then some ds else none

/-- Alternation `(?:ended|ending)` followed by the continuation `cont`. -/
def altEndedEnding (cont : List Char → Option (List Char)) (r : List Char) :
    Option (List Char) :=
  match ciMatch "ended".toList r with
  | some r2 =>
    match cont r2 with
    | some v => some v
    | none =>
      match ciMatch "ending".toList r with
      | some r3 => cont r3
      | none => none
  | none =>
    match ciMatch "ending".toList r with
    | some r3 => cont r3
    | none => none

/-- Regex `\s*` then the textual capture. -/
def wsStarTextCap (r : List Char) : Option (List Char) :=
  textCapAt (r.dropWhile pyIsSpace)

/-- Regex `\s*` then the 8-digit capture. -/
def wsStarDig8 (r : List Char) : Option (List Char) :=
  dig8At (r.dropWhile pyIsSpace)

/-- Line 148: `for\s+the\s+fiscal\s+year\s+ended\s*([A-Za-z]+\s+\d{1,2},\s*\d{4})`. -/
def patFiscalEndedTxt (l : List Char) : Option (List Char) :=
  (litWordsCI ["for".toList, "the".toList, "fiscal".toList, "year".toList,
    "ended".toList] l).bind wsStarTextCap

/-- Line 149: `fiscal\s+year\s+(?:ended|ending)\s*([A-Za-z]+\s+\d{1,2},\s*\d{4})`. -/
def patFiscalYearTxt (l : List Char) : Option (List Char) :=
  (litWordsCI ["fiscal".toList, "year".toList] l).bind (fun r =>
    (wsPlus r).bind (altEndedEnding wsStarTextCap))

/-- Line 150: `for\s+the\s+year\s+(?:ended|ending)\s*([A-Za-z]+\s+\d{1,2},\s*\d{4})`. -/
def patForTheYearTxt (l : List Char) : Option (List Char) :=
  (litWordsCI ["for".toList, "the".toList, "year".toList] l).bind (fun r =>
    (wsPlus r).bind (altEndedEnding wsStarTextCap))

/-- Line 151: `year\s+ended\s*([A-Za-z]+\s+\d{1,2},\s*\d{4})`. -/
def patYearEndedTxt (l : List Char) : Option (List Char) :=
  (litWordsCI ["year".toList, "ended".toList] l).bind wsStarTextCap

/-- Line 152: `period\s+of\s+report\s*([A-Za-z]+\s+\d{1,2},\s*\d{4})`. -/
def patPeriodTxt (l : List Char) : Option (List Char) :=
  (litWordsCI ["period".toList, "of".toList, "report".toList] l).bind wsStarTextCap

/-- Line 153: `conformed\s+period\s+of\s+report[:\s]*([0-9]{8})`. -/
def patConformed8 (l : List Char) : Option (List Char) :=
  (litWordsCI ["conformed".toList, "period".toList, "of".toList,
    "report".toList] l).bind (fun r =>
    dig8At (r.dropWhile (fun c => c = ':' || pyIsSpace c)))

/-- Line 154: `for\s+the\s+fiscal\s+year\s+ended\s*([0-9]{8})`. -/
def patFiscalEnded8 (l : List Char) : Option (List Char) :=
  (litWordsCI ["for".toList, "the".toList, "fiscal".toList, "year".toList,
    "ended".toList] l).bind wsStarDig8

/-- Line 155: `for\s+the\s+year\s+ended\s*([0-9]{8})`. -/
def patForTheYearEnded8 (l : List Char) : Option (List Char) :=
  (litWordsCI ["for".toList, "the".toList, "year".toList,
    "ended".toList] l).bind wsStarDig8

/-- The priority-ordered pattern list of lines 147-156. -/
def datePatterns : List (List Char → Option (List Char)) :=
  [patFiscalEndedTxt, patFiscalYearTxt, patForTheYearTxt, patYearEndedTxt,
   patPeriodTxt, patConformed8, patFiscalEnded8, patForTheYearEnded8]

/-- Function `re.search`: try the matcher at every start position from the left and
return the first capture. -/
def searchCap (m : List Char → Option (List Char)) : List Char → Option (List Char)
  | [] => m []
  | c :: rest =>
    match m (c :: rest) with
    | some cap => some cap
    | none => searchCap m rest

/-! ### `datetime.strptime` for the formats of lines 168 and 174 -/

/-- A parsed calendar date. -/
structure PyDate where
  y : Nat
  m : Nat
  d : Nat
deriving DecidableEq

/-- Whether `y` is a leap year (proleptic Gregorian, as `datetime`). -/
def isLeap (y : Nat) : Bool :=
  y % 4 = 0 && (y % 100 ≠ 0 || y % 400 = 0)

/-- Days in a month, as validated by the `datetime` constructor. -/
def daysInMonth (y m : Nat) : Nat :=
  if m = 2 then (if isLeap y then 29 else 28)
  else if m = 4 || m = 6 || m = 9 || m = 11 then 30
  else 31

/-- The `datetime(y, m, d)` constructor: validates the field ranges and
the day against the month and year, rejecting invalid dates. -/
def mkDate (y m d : Nat) : Option PyDate :=
  if 1 ≤ y && y ≤ 9999 && 1 ≤ m && m ≤ 12 && 1 ≤ d && d ≤ daysInMonth y m then
    some ⟨y, m, d⟩
  else none

/-- Value of a digit list (most significant first). -/
def natOfDigits (l : List Char) : Nat :=
  l.foldl (fun acc c => acc * 10 + (c.toNat - '0'.toNat)) 0

/-- The month names recognised by `%B`, with their numbers. -/
def fullMonths : List (List Char × Nat) :=
  [("january".toList, 1), ("february".toList, 2), ("march".toList, 3),
   ("april".toList, 4), ("may".toList, 5), ("june".toList, 6),
   ("july".toList, 7), ("august".toList, 8), ("september".toList, 9),
   ("october".toList, 10), ("november".toList, 11), ("december".toList, 12)]

/-- The month names recognised by `%b`, with their numbers. -/
def abbrMonths : List (List Char × Nat) :=
  [("jan".toList, 1), ("feb".toList, 2), ("mar".toList, 3), ("apr".toList, 4),
   ("may".toList, 5), ("jun".toList, 6), ("jul".toList, 7), ("aug".toList, 8),
   ("sep".toList, 9), ("oct".toList, 10), ("nov".toList, 11), ("dec".toList, 12)]

/-- Match a month name (case-insensitively) at the head of the input. -/
def monthAt : List (List Char × Nat) → List Char → Option (Nat × List Char)
  | [], _ => none
  | (w, m) :: ms, l =>
    match ciMatch w l with
    | some r => some (m, r)
    | none => monthAt ms l

/-- The alternatives of `%d` (`3[01]|[12]\d|0[1-9]|[1-9]`) applicable at
the head of the input, in the priority order of the regex alternation; the
caller commits to the first one whose continuation succeeds. -/
def dayCands : List Char → List (Nat × List Char)
  | [] => []
  | [c1] => if '1' ≤ c1 && c1 ≤ '9' then [(c1.toNat - '0'.toNat, [])] else []
  | c1 :: c2 :: rest =>
    (if c1 = '3' && (c2 = '0' || c2 = '1') then
      [(30 + (c2.toNat - '0'.toNat), rest)] else []) ++
    (if (c1 = '1' || c1 = '2') && c2.isDigit then
      [((c1.toNat - '0'.toNat) * 10 + (c2.toNat - '0'.toNat), rest)] else []) ++
    (if c1 = '0' && '1' ≤ c2 && c2 ≤ '9' then
      [(c2.toNat - '0'.toNat, rest)] else []) ++
    (if '1' ≤ c1 && c1 ≤ '9' then [(c1.toNat - '0'.toNat, c2 :: rest)] else [])

/-- Exactly four digits (`%Y`), which must exhaust the input
(`strptime` rejects unconverted trailing data). -/
def yearEnd (l : List Char) : Option Nat :=
  let y4 := l.take 4
  if y4.length = 4 && y4.all Char.isDigit && l.drop 4 = [] then
    some (natOfDigits y4)
  else none

/-- Format `strptime(ds, "%<month> %d, %Y")` for a given month table. -/
def parseMonthDY (mons : List (List Char × Nat)) (ds : List Char) : Option PyDate :=
  match monthAt mons ds with
  | none => none
  | some (m, r1) =>
    match wsPlus r1 with
    | none => none
    | some r2 =>
      (dayCands r2).findSome? fun (d, r3) =>
        match r3 with
        | ',' :: r4 =>
          match wsPlus r4 with
          | none => none
          | some r5 => (yearEnd r5).bind fun y => mkDate y m d
        | _ => none

/-- Format `strptime(ds, "%d %<month> %Y")` for a given month table. -/
def parseDMonthY (mons : List (List Char × Nat)) (ds : List Char) : Option PyDate :=
  (dayCands ds).findSome? fun (d, r1) =>
    match wsPlus r1 with
    | none => none
    | some r2 =>
      match monthAt mons r2 with
      | none => none
      | some (m, r3) =>
        match wsPlus r3 with
        | none => none
        | some r4 => (yearEnd r4).bind fun y => mkDate y m d

/-- Lines 174-180: try the four textual formats in order, returning the
first successful parse. -/
def parseTextual (ds : List Char) : Option PyDate :=
  match parseMonthDY fullMonths ds with
  | some d => some d
  | none =>
    match parseMonthDY abbrMonths ds with
    | some d => some d
    | none =>
      match parseDMonthY fullMonths ds with
      | some d => some d
      | none => parseDMonthY abbrMonths ds

/-- Lines 166-172: `strptime(ds, "%Y%m%d")` on an 8-digit string. -/
def parse8 (ds : List Char) : Option PyDate :=
  mkDate (natOfDigits (ds.take 4)) (natOfDigits ((ds.drop 4).take 2))
    (natOfDigits (ds.drop 6))

/-- Lines 169 and 177: the month/day/year format string, no zero padding. -/
def fmtDate (d : PyDate) : List Char :=
  Nat.toDigits 10 d.m ++ '/' :: Nat.toDigits 10 d.d ++ '/' :: Nat.toDigits 10 d.y

/-- Lines 161-181: walk the patterns in priority order; on a search hit,
parse the captured string (8-digit or textual); on a parse failure,
continue with the next pattern. -/
def dateLoop : List (List Char → Option (List Char)) → List Char → Option (List Char)
  | [], _ => none
  | p :: ps, text =>
    match searchCap p text with
    | none => dateLoop ps text
    | some cap =>
      let ds := pyStrip cap
      if ds.length = 8 && ds.all Char.isDigit then
        match parse8 ds with
        | some d => some (fmtDate d)
        | none => dateLoop ps text
      else
        match parseTextual ds with
        | some d => some (fmtDate d)
        | none => dateLoop ps text

/-- Function `extract_reporting_date` (lines 144-181): flatten the document,
normalise whitespace and run the pattern loop; `none` models the
`ValueError` raised when no pattern yields a date. -/
def extract_reporting_date (root : Node) : Option (List Char) :=
  dateLoop datePatterns (subWs (getText root))

/-! ## `extract_risk_factor_titles` (the TitleClassifier) -/

/-- Line 283, `bold_tags = ["b", "strong", "h4"]`. -/
def boldTags : List (List Char) := ["b".toList, "strong".toList, "h4".toList]

/-- Line 284, `italic_tags = ["i", "em"]`. -/
def italicTags : List (List Char) := ["i".toList, "em".toList]

/-- Line 285, `underline_tags = ["u"]`. -/
def underlineTags : List (List Char) := ["u".toList]

/-- Line 302, the container-tag list p, div, span. -/
def pdsTags : List (List Char) := ["p".toList, "div".toList, "span".toList]

/-- A candidate title: its normalized text and its emphasis kind
(`{"text": ..., "emphasis": ...}`). -/
structure Cand where
  text : List Char
  emph : List Char
deriving DecidableEq

/-- The running state of the classifier: the `seen` set and the ordered
`titles` list. -/
structure ClsState where
  seen : List (List Char)
  titles : List Cand
deriving DecidableEq

/-- Lines 304 and 337, the style normalisation lower-then-remove-spaces. -/
def styleNorm (st : List Char) : List Char :=
  removeSpaces (lowerL st)

/-- Line 305 / 338: the bold-style test on the normalized style string. -/
def isBoldIn (sn : List Char) : Bool :=
  containsSub "font-weight:bold".toList sn ||
  containsSub "font-weight: bold".toList sn ||
  containsSub "font-weight:700".toList sn

/-- Line 306 / 339: the italic-style test on the normalized style string. -/
def isItalicIn (sn : List Char) : Bool :=
  containsSub "font-style:italic".toList sn ||
  containsSub "font-style: italic".toList sn ||
  containsSub "font-style:700".toList sn

/-- Line 307 / 340: the underline-style test. -/
def isUnderlineIn (sn : List Char) : Bool :=
  containsSub "text-decoration:underline".toList sn ||
  containsSub "text-decoration: underline".toList sn

/-- Line 292: the length/punctuation filter (`continue` when true). -/
def gateFails (text : List Char) : Bool :=
  text = [] || text.length > 1000 || wordCount text < 5 || text.length < 10 ||
    !(endsPunct text)

/-- Lines 296-299: a tag whose own name is an emphasis tag. -/
def ownChannel (st : ClsState) (t : Node) (text : List Char) : ClsState :=
  if !st.seen.contains text && !isUpperPy text then
    ⟨text :: st.seen, st.titles ++ [⟨text, nameOf t⟩]⟩
  else st

/-- Lines 304-317: emphasis from the own style attribute of the element. -/
def styleChannel (st : ClsState) (sn : List Char) (text : List Char) : ClsState :=
  if isBoldIn sn && !st.seen.contains text && !isUpperPy text then
    ⟨text :: st.seen, st.titles ++ [⟨text, "b".toList⟩]⟩
  else if isItalicIn sn && !st.seen.contains text && !isUpperPy text then
    ⟨text :: st.seen, st.titles ++ [⟨text, "i".toList⟩]⟩
  else if isUnderlineIn sn && !st.seen.contains text && !isUpperPy text then
    ⟨text :: st.seen, st.titles ++ [⟨text, "u".toList⟩]⟩
  else st

/-- Lines 322-327: the recovered text of a direct `<i>` child — strip,
collapse, drop trailing periods and append a single `"."`. -/
def ichildText (ch : Node) : List Char :=
  pyStrip (rstripDot (pyStrip (collapse (pyStrip (getText ch))))) ++ ['.']

/-- Lines 322-331: the bad-formatting recovery for a `<i>` child whose
closing period sits outside the emphasis markup. -/
def ichildChannel (st : ClsState) (t : Node) : ClsState :=
  match (childrenOf t).find? (fun c => nameOf c == "i".toList) with
  | none => st
  | some ch =>
    let te := ichildText ch
    if te.length ≤ 1000 && te.length ≥ 5 && te.length ≥ 10 then
      if !st.seen.contains te && !isUpperPy te then
        ⟨te :: st.seen, st.titles ++ [⟨te, "i".toList⟩]⟩
      else st
    else st

/-- Lines 335-356: accumulate the bold, italic and underline runs of the
styled descendants of a tag (bold takes priority in the `elif` chain). -/
def aggTexts (t : Node) : List Char × List Char × List Char :=
  (descTagsNL (childrenNL t)).foldl
    (fun acc child =>
      let sn := styleNorm (styleOf child)
      let tcc := collapse (pyStrip (getText child))
      if isBoldIn sn then
        if tcc ≠ [] then (acc.1 ++ tcc, acc.2.1, acc.2.2) else acc
      else if isItalicIn sn then
        if tcc ≠ [] then (acc.1, acc.2.1 ++ tcc, acc.2.2) else acc
      else if isUnderlineIn sn then
        if tcc ≠ [] then (acc.1, acc.2.1, acc.2.2 ++ tcc) else acc
      else acc)
    ([], [], [])

/-- Line 359 / 365 / 370: the filter applied to an aggregated run
(`wordCount` this time, unlike the `<i>`-child special case). -/
def aggOk (ft : List Char) : Bool :=
  ft ≠ [] && ft.length ≤ 1000 && wordCount ft ≥ 5 && ft.length ≥ 10 && endsPunct ft

/-- Lines 359-373: turn the first acceptable aggregated run (bold, then
italic, then underline) into a candidate; the `seen` set receives the
stripped text, as in the source. -/
def aggChannel (st : ClsState) (t : Node) : ClsState :=
  match aggTexts t with
  | (fb, fi, fu) =>
    if aggOk fb then
      if fb ≠ [] && !st.seen.contains fb && !isUpperPy fb then
        ⟨pyStrip fb :: st.seen, st.titles ++ [⟨fb, "b".toList⟩]⟩
      else st
    else if aggOk fi then
      if fi ≠ [] && !st.seen.contains fi && !isUpperPy fi then
        ⟨pyStrip fi :: st.seen, st.titles ++ [⟨fi, "i".toList⟩]⟩
      else st
    else if aggOk fu then
      if fu ≠ [] && !st.seen.contains fu && !isUpperPy fu then
        ⟨pyStrip fu :: st.seen, st.titles ++ [⟨fu, "u".toList⟩]⟩
      else st
    else st

/-- Lines 288-373: the per-tag body of the classifier loop. -/
def processTag (st : ClsState) (t : Node) : ClsState :=
  let text := collapse (getText t)
  if gateFails text then st
  else if boldTags.contains (nameOf t) || italicTags.contains (nameOf t) ||
      underlineTags.contains (nameOf t) then
    ownChannel st t text
  else if pdsTags.contains (nameOf t) then
    aggChannel (ichildChannel (styleChannel st (styleNorm (styleOf t)) text) t) t
  else st

/-- The candidate list collected by the main loop of the classifier. -/
def titlesOf (root : Node) : List Cand :=
  ((descTagsNL (childrenNL root)).foldl processTag ⟨[], []⟩).titles

/-- Lines 378-380, the per-kind candidate count. -/
def countEmph (tags : List (List Char)) (ts : List Cand) : Nat :=
  ts.countP (fun c => tags.contains c.emph)

/-- Lines 377-387: dominant-style resolution — keep only the strictly
most frequent emphasis kind, or everything on a tie. -/
def resolveDominant (ts : List Cand) : List Cand :=
  let ci := countEmph italicTags ts
  let cb := countEmph boldTags ts
  let cu := countEmph underlineTags ts
  if ci > cb && ci > cu then ts.filter (fun c => italicTags.contains c.emph)
  else if cb > ci && cb > cu then ts.filter (fun c => boldTags.contains c.emph)
  else if cu > ci && cu > cb then ts.filter (fun c => underlineTags.contains c.emph)
  else ts

/-- Function `extract_risk_factor_titles` (lines 272-390). -/
def extract_risk_factor_titles (root : Node) : List (List Char) :=
  (resolveDominant (titlesOf root)).map Cand.text

/-! ## Specification-side definitions

The following definitions restate parts of the claims of the specification in
order to compare them with the code; they are not part of the embedding
of the source. -/

/-- Emit one candidate when its text is novel: the common shape of all
emission sites of the classifier. -/
def emitOne (st : ClsState) (c : Cand) : ClsState :=
  if !st.seen.contains c.text then ⟨c.text :: st.seen, st.titles ++ [c]⟩ else st

/-- Emit a list of candidates in order. -/
def emitAll (st : ClsState) (cs : List Cand) : ClsState :=
  cs.foldl emitOne st

/-- The candidate the style channel would attempt for a tag, independent
of the `seen` set. -/
def styleAttempt (sn text : List Char) : List Cand :=
  if isUpperPy text then []
  else if isBoldIn sn then [⟨text, "b".toList⟩]
  else if isItalicIn sn then [⟨text, "i".toList⟩]
  else if isUnderlineIn sn then [⟨text, "u".toList⟩]
  else []

/-- The candidate the `<i>`-child channel would attempt for a tag. -/
def ichildAttempt (t : Node) : List Cand :=
  match (childrenOf t).find? (fun c => nameOf c == "i".toList) with
  | none => []
  | some ch =>
    let te := ichildText ch
    if te.length ≤ 1000 && te.length ≥ 5 && te.length ≥ 10 then
      if isUpperPy te then [] else [⟨te, "i".toList⟩]
    else []

/-- The candidate the aggregation channel would attempt for a tag. -/
def aggAttempt (t : Node) : List Cand :=
  match aggTexts t with
  | (fb, fi, fu) =>
    if aggOk fb then (if isUpperPy fb then [] else [⟨fb, "b".toList⟩])
    else if aggOk fi then (if isUpperPy fi then [] else [⟨fi, "i".toList⟩])
    else if aggOk fu then (if isUpperPy fu then [] else [⟨fu, "u".toList⟩])
    else []

/-- All candidates a tag attempts, in order, independent of `seen`. -/
def tagAttempts (t : Node) : List Cand :=
  let text := collapse (getText t)
  if gateFails text then []
  else if boldTags.contains (nameOf t) || italicTags.contains (nameOf t) ||
      underlineTags.contains (nameOf t) then
    if isUpperPy text then [] else [⟨text, nameOf t⟩]
  else if pdsTags.contains (nameOf t) then
    styleAttempt (styleNorm (styleOf t)) text ++ ichildAttempt t ++ aggAttempt t
  else []

/-- The raw candidate stream of a whole document, in traversal order. -/
def allAttempts (root : Node) : List Cand :=
  (descTagsNL (childrenNL root)).flatMap tagAttempts

/-- Keep only the first occurrence of every candidate text (given texts
already `seen`), preserving order. -/
def dedupFirst (seen : List (List Char)) : List Cand → List Cand
  | [] => []
  | c :: cs =>
    if seen.contains c.text then dedupFirst seen cs
    else c :: dedupFirst (c.text :: seen) cs

/-- The `seen` set after emitting a candidate list. -/
def seenAfter (seen : List (List Char)) : List Cand → List (List Char)
  | [] => seen
  | c :: cs =>
    if seen.contains c.text then seenAfter seen cs
    else seenAfter (c.text :: seen) cs

/-- One output title re-packaged as an element of its recorded emphasis
kind. -/
def wrapElem (c : Cand) : Node :=
  Node.tag c.emph [] (NodeL.ofList [Node.txt c.text])

/-- Re-package a candidate list as a fresh document slice, each title
wrapped in an element of its recorded emphasis kind. -/
def wrapTitles (cs : List Cand) : Node :=
  Node.tag "[document]".toList [] (NodeL.ofList (cs.map wrapElem))

/-- The result the date loop derives from a single pattern: the parse of
its search capture, if any. -/
def patResult (p : List Char → Option (List Char)) (text : List Char) :
    Option (List Char) :=
  match searchCap p text with
  | none => none
  | some cap =>
    let ds := pyStrip cap
    if ds.length = 8 && ds.all Char.isDigit then (parse8 ds).map fmtDate
    else (parseTextual ds).map fmtDate

/-- A valid calendar date as the `datetime` constructor checks it. -/
def ValidDate (y m d : Nat) : Prop :=
  1 ≤ y ∧ y ≤ 9999 ∧ 1 ≤ m ∧ m ≤ 12 ∧ 1 ≤ d ∧ d ≤ daysInMonth y m

/-- The start condition of the code, read off a suffix of the element
list: the heading test on the head of the suffix plus content in the
10-element window starting at it (the element itself included). -/
def startPred (l : List Elem) : Bool :=
  match l with
  | [] => false
  | e :: _ => startCondA (textOf e) && hasContentLoop (l.take 10)

/-- The start condition as the claim states it: the heading test plus
content in the window of the 10 elements following the candidate
(the element itself excluded). -/
def claimStartPred (l : List Elem) (i : Nat) : Bool :=
  match l.drop i with
  | [] => false
  | e :: _ => startCondA (textOf e) && hasContentLoop ((l.drop (i + 1)).take 10)

/-- The case-insensitive de-duplication key of the slice assembly
(line 264). -/
def normKey (b : Node) : List Char :=
  lowerL (collapse (getText b))

/-- The invariant satisfied by every candidate the classifier emits. -/
def GoodCand (c : Cand) : Prop :=
  collapse c.text = c.text ∧ c.text ≠ [] ∧ endsPunct c.text = true ∧
  isUpperPy c.text = false ∧ 10 ≤ c.text.length ∧ c.text.length ≤ 1000 ∧
  (c.emph ∈ boldTags ∨ c.emph ∈ italicTags ∨ c.emph ∈ underlineTags)

/-- Merging two word lists across string concatenation: the last word of
the first list fuses with the first word of the second. -/
def mergeWords : List (List Char) → List (List Char) → List (List Char)
  | [], ws2 => ws2
  | [w], [] => [w]
  | [w], w2 :: ws2 => (w ++ w2) :: ws2
  | w :: w1 :: ws1, ws2 => w :: mergeWords (w1 :: ws1) ws2

/-- All words are nonempty and whitespace-free. -/
def WordsGood (ws : List (List Char)) : Prop :=
  ∀ w ∈ ws, w ≠ [] ∧ ∀ c ∈ w, pyIsSpace c = false

/-! ## Lemmas: words and whitespace collapsing -/

theorem pyWordsAux_good : ∀ (l acc : List Char),
    (∀ c ∈ acc, pyIsSpace c = false) → WordsGood (pyWordsAux l acc)
  | [], acc => by
    intro hacc
    unfold pyWordsAux
    split
    · intro w hw
      simp at hw
    · intro w hw
      simp only [List.mem_singleton] at hw
      subst hw
      refine ⟨by simpa using ‹¬acc = []›, ?_⟩
      intro c hc
      exact hacc c (List.mem_reverse.mp hc)
  | c :: rest, acc => by
    intro hacc
    unfold pyWordsAux
    split
    · split
      · exact pyWordsAux_good rest [] (by simp)
      · intro w hw
        rcases List.mem_cons.mp hw with h | h
        · subst h
          refine ⟨by simpa using ‹¬acc = []›, ?_⟩
          intro d hd
          exact hacc d (List.mem_reverse.mp hd)
        · exact pyWordsAux_good rest [] (by simp) w h
    · rename_i hsp
      refine pyWordsAux_good rest (c :: acc) ?_
      intro d hd
      rcases List.mem_cons.mp hd with h | h
      · rw [h]; simpa using hsp
      · exact hacc d h

theorem pyWords_good (l : List Char) : WordsGood (pyWords l) :=
  pyWordsAux_good l [] (by simp)

theorem pyWordsAux_nonspace : ∀ (w l acc : List Char),
    (∀ c ∈ w, pyIsSpace c = false) →
    pyWordsAux (w ++ l) acc = pyWordsAux l (w.reverse ++ acc)
  | [], l, acc => by simp
  | c :: w', l, acc => by
    intro hw
    have hc : pyIsSpace c = false := hw c (by simp)
    have h1 : pyWordsAux ((c :: w') ++ l) acc = pyWordsAux (w' ++ l) (c :: acc) := by
      simp [pyWordsAux, hc]
    rw [h1, pyWordsAux_nonspace w' l (c :: acc) (fun d hd => hw d (by simp [hd]))]
    simp

theorem pyWords_joinSpace : ∀ ws, WordsGood ws → pyWords (joinSpace ws) = ws
  | [], _ => by simp [pyWords, pyWordsAux, joinSpace]
  | [w], h => by
    obtain ⟨hne, hch⟩ := h w (by simp)
    have h1 : pyWords (joinSpace [w]) = pyWordsAux (w ++ []) [] := by
      simp [pyWords, joinSpace]
    rw [h1, pyWordsAux_nonspace w [] [] hch]
    unfold pyWordsAux
    rw [if_neg (by simpa using hne)]
    simp
  | w :: w1 :: ws, h => by
    obtain ⟨hne, hch⟩ := h w (by simp)
    show pyWords (w ++ ' ' :: joinSpace (w1 :: ws)) = _
    unfold pyWords
    rw [pyWordsAux_nonspace w _ [] hch]
    unfold pyWordsAux
    rw [if_pos (by decide)]
    rw [if_neg (by simpa using hne)]
    simp only [List.append_nil, List.reverse_reverse]
    rw [show pyWordsAux (joinSpace (w1 :: ws)) [] = pyWords (joinSpace (w1 :: ws)) from rfl]
    rw [pyWords_joinSpace (w1 :: ws) (fun v hv => h v (by simp [hv]))]

theorem collapse_idem (l : List Char) : collapse (collapse l) = collapse l := by
  show joinSpace (pyWords (joinSpace (pyWords l))) = _
  rw [pyWords_joinSpace _ (pyWords_good l)]
  rfl

theorem joinSpace_ne_nil : ∀ ws, WordsGood ws → ws ≠ [] → joinSpace ws ≠ []
  | [], _, h => absurd rfl h
  | [w], h, _ => by simpa [joinSpace] using (h w (by simp)).1
  | w :: w1 :: ws, h, _ => by
    have := (h w (by simp)).1
    simp only [joinSpace]
    simp [this]

theorem joinSpace_cons (w : List Char) (ws : List (List Char)) (h : ws ≠ []) :
    joinSpace (w :: ws) = w ++ ' ' :: joinSpace ws := by
  cases ws with
  | nil => exact absurd rfl h
  | cons w1 ws1 => rfl

theorem joinSpace_head : ∀ ws, WordsGood ws → ∀ c,
    (joinSpace ws).head? = some c → pyIsSpace c = false
  | [], _, c => by simp [joinSpace]
  | [w], h, c => by
    intro hc
    exact (h w (by simp)).2 c (List.mem_of_mem_head? hc)
  | w :: w1 :: ws, h, c => by
    intro hc
    obtain ⟨hne, hch⟩ := h w (by simp)
    have hstep : (joinSpace (w :: w1 :: ws)).head? = w.head? := by
      cases w with
      | nil => exact absurd rfl hne
      | cons x w' => simp [joinSpace]
    rw [hstep] at hc
    exact hch c (List.mem_of_mem_head? hc)

theorem joinSpace_getLast : ∀ ws, WordsGood ws → ∀ c,
    (joinSpace ws).getLast? = some c → pyIsSpace c = false
  | [], _, c => by simp [joinSpace]
  | [w], h, c => by
    intro hc
    exact (h w (by simp)).2 c (List.mem_of_mem_getLast? hc)
  | w :: w1 :: ws, h, c => by
    intro hc
    have hgood : WordsGood (w1 :: ws) := fun v hv => h v (by simp [hv])
    have hne : joinSpace (w1 :: ws) ≠ [] := joinSpace_ne_nil _ hgood (by simp)
    have hstep : (joinSpace (w :: w1 :: ws)).getLast? = (joinSpace (w1 :: ws)).getLast? := by
      show (w ++ ' ' :: joinSpace (w1 :: ws)).getLast? = _
      rw [List.getLast?_append]
      cases hj : joinSpace (w1 :: ws) with
      | nil => exact absurd hj hne
      | cons y ys =>
        rw [List.getLast?_cons_cons]
        cases hg : (y :: ys).getLast? with
        | none => exact absurd (List.getLast?_eq_none_iff.mp hg) (by simp)
        | some z => simp [hg]
    rw [hstep] at hc
    exact joinSpace_getLast (w1 :: ws) hgood c hc

theorem dropWhile_eq_self_of_head {p : Char → Bool} {l : List Char}
    (h : ∀ c, l.head? = some c → p c = false) : l.dropWhile p = l := by
  cases l with
  | nil => rfl
  | cons x r => simp [List.dropWhile_cons, h x rfl]

theorem pyStrip_eq_self {l : List Char}
    (h1 : ∀ c, l.head? = some c → pyIsSpace c = false)
    (h2 : ∀ c, l.getLast? = some c → pyIsSpace c = false) : pyStrip l = l := by
  unfold pyStrip
  rw [dropWhile_eq_self_of_head h1]
  rw [dropWhile_eq_self_of_head (fun c hc => h2 c (by rwa [List.head?_reverse] at hc))]
  exact l.reverse_reverse

theorem collapsed_strip {l : List Char} (h : collapse l = l) : pyStrip l = l := by
  have hh : pyStrip (collapse l) = collapse l := by
    refine pyStrip_eq_self ?_ ?_
    · exact joinSpace_head (pyWords l) (pyWords_good l)
    · exact joinSpace_getLast (pyWords l) (pyWords_good l)
  rwa [h] at hh

theorem mergeWords_ne_nil : ∀ (ws1 ws2 : List (List Char)), ws1 ≠ [] →
    mergeWords ws1 ws2 ≠ []
  | [], _, h => absurd rfl h
  | [w], [], _ => by simp [mergeWords]
  | [w], w2 :: ws2, _ => by simp [mergeWords]
  | w :: w1 :: ws1, ws2, _ => by simp [mergeWords]

theorem mergeWords_good : ∀ ws1 ws2, WordsGood ws1 → WordsGood ws2 →
    WordsGood (mergeWords ws1 ws2)
  | [], ws2, _, h2 => h2
  | [w], [], h1, _ => h1
  | [w], w2 :: ws2, h1, h2 => by
    intro v hv
    simp only [mergeWords, List.mem_cons] at hv
    rcases hv with h | h
    · subst h
      obtain ⟨hw, hwc⟩ := h1 w (by simp)
      obtain ⟨h2w, h2wc⟩ := h2 w2 (by simp)
      refine ⟨by simp [hw], ?_⟩
      intro c hc
      rcases List.mem_append.mp hc with h | h
      · exact hwc c h
      · exact h2wc c h
    · exact h2 v (by simp [h])
  | w :: w1 :: ws1, ws2, h1, h2 => by
    intro v hv
    simp only [mergeWords, List.mem_cons] at hv
    rcases hv with h | h
    · subst h; exact h1 v (by simp)
    · exact mergeWords_good (w1 :: ws1) ws2 (fun u hu => h1 u (by simp [hu])) h2 v h

theorem pyWords_joinSpace_append : ∀ ws1 ws2, WordsGood ws1 → WordsGood ws2 →
    pyWords (joinSpace ws1 ++ joinSpace ws2) = mergeWords ws1 ws2
  | [], ws2, _, h2 => by
    simp only [joinSpace, List.nil_append, mergeWords]
    exact pyWords_joinSpace ws2 h2
  | [w], [], h1, _ => by
    simp only [joinSpace, List.append_nil, mergeWords]
    exact pyWords_joinSpace [w] h1
  | [w], w2 :: ws2, h1, h2 => by
    obtain ⟨hne, hch⟩ := h1 w (by simp)
    obtain ⟨hne2, hch2⟩ := h2 w2 (by simp)
    have hcat : ∀ c ∈ w ++ w2, pyIsSpace c = false := by
      intro c hc
      rcases List.mem_append.mp hc with h | h
      · exact hch c h
      · exact hch2 c h
    cases ws2 with
    | nil =>
      show pyWords (w ++ w2) = [w ++ w2]
      have h1' : pyWords (w ++ w2) = pyWordsAux ((w ++ w2) ++ []) [] := by
        simp [pyWords]
      rw [h1', pyWordsAux_nonspace (w ++ w2) [] [] hcat]
      unfold pyWordsAux
      rw [if_neg (by simp [hne])]
      simp
    | cons w3 ws3 =>
      show pyWords (w ++ (w2 ++ ' ' :: joinSpace (w3 :: ws3))) = _
      unfold pyWords
      rw [show w ++ (w2 ++ ' ' :: joinSpace (w3 :: ws3)) =
        (w ++ w2) ++ (' ' :: joinSpace (w3 :: ws3)) by simp]
      rw [pyWordsAux_nonspace (w ++ w2) _ [] hcat]
      unfold pyWordsAux
      rw [if_pos (by decide)]
      rw [if_neg (by simp [hne])]
      simp only [List.append_nil, List.reverse_reverse]
      rw [show pyWordsAux (joinSpace (w3 :: ws3)) [] = pyWords (joinSpace (w3 :: ws3)) from rfl]
      rw [pyWords_joinSpace (w3 :: ws3) (fun v hv => h2 v (by simp [hv]))]
      rfl
  | w :: w1 :: ws1, ws2, h1, h2 => by
    obtain ⟨hne, hch⟩ := h1 w (by simp)
    show pyWords ((w ++ ' ' :: joinSpace (w1 :: ws1)) ++ joinSpace ws2) = _
    unfold pyWords
    rw [show (w ++ ' ' :: joinSpace (w1 :: ws1)) ++ joinSpace ws2 =
      w ++ (' ' :: (joinSpace (w1 :: ws1) ++ joinSpace ws2)) by simp]
    rw [pyWordsAux_nonspace w _ [] hch]
    unfold pyWordsAux
    rw [if_pos (by decide)]
    rw [if_neg (by simp [hne])]
    simp only [List.append_nil, List.reverse_reverse]
    rw [show pyWordsAux (joinSpace (w1 :: ws1) ++ joinSpace ws2) [] =
      pyWords (joinSpace (w1 :: ws1) ++ joinSpace ws2) from rfl]
    rw [pyWords_joinSpace_append (w1 :: ws1) ws2
      (fun v hv => h1 v (by simp [hv])) h2]
    rfl

theorem joinSpace_mergeWords : ∀ ws1 ws2, joinSpace (mergeWords ws1 ws2) =
    joinSpace ws1 ++ joinSpace ws2
  | [], ws2 => by simp [mergeWords, joinSpace]
  | [w], [] => by simp [mergeWords, joinSpace]
  | [w], w2 :: ws2 => by
    cases ws2 with
    | nil => simp [mergeWords, joinSpace]
    | cons w3 ws3 => simp [mergeWords, joinSpace]
  | w :: w1 :: ws1, ws2 => by
    have hm : mergeWords (w1 :: ws1) ws2 ≠ [] := mergeWords_ne_nil _ _ (by simp)
    show joinSpace (w :: mergeWords (w1 :: ws1) ws2) =
      (w ++ ' ' :: joinSpace (w1 :: ws1)) ++ joinSpace ws2
    rw [joinSpace_cons w _ hm, joinSpace_mergeWords (w1 :: ws1) ws2]
    simp

theorem collapse_append {p q : List Char} (h1 : collapse p = p)
    (h2 : collapse q = q) : collapse (p ++ q) = p ++ q := by
  have e1 : joinSpace (pyWords p) = p := h1
  have e2 : joinSpace (pyWords q) = q := h2
  calc collapse (p ++ q)
      = collapse (joinSpace (pyWords p) ++ joinSpace (pyWords q)) := by rw [e1, e2]
    _ = joinSpace (pyWords (joinSpace (pyWords p) ++ joinSpace (pyWords q))) := rfl
    _ = joinSpace (mergeWords (pyWords p) (pyWords q)) := by
        rw [pyWords_joinSpace_append _ _ (pyWords_good p) (pyWords_good q)]
    _ = joinSpace (pyWords p) ++ joinSpace (pyWords q) := joinSpace_mergeWords _ _
    _ = p ++ q := by rw [e1, e2]

set_option maxRecDepth 1000000

set_option maxHeartbeats 2000000

theorem collapse_nil : collapse ([] : List Char) = [] := rfl

theorem collapse_joinSpace_good {ws : List (List Char)} (h : WordsGood ws) :
    collapse (joinSpace ws) = joinSpace ws := by
  show joinSpace (pyWords (joinSpace ws)) = _
  rw [pyWords_joinSpace ws h]

/-! ## Lemmas: trailing-dot stripping (the `<i>`-child recovery) -/

theorem rstripDot_append (a b : List Char) : rstripDot (a ++ b) =
    if rstripDot b = [] then rstripDot a else a ++ rstripDot b := by
  unfold rstripDot
  rw [List.reverse_append, List.dropWhile_append]
  by_cases hb : b.reverse.dropWhile (fun c => c = '.') = []
  · rw [if_pos (by simp [hb]), if_pos (by simp [hb])]
  · rw [if_neg (by simp [hb]), if_neg (by simp [hb])]
    simp

theorem rstripDot_cons_space (l : List Char) :
    rstripDot (' ' :: l) = ' ' :: rstripDot l := by
  have h := rstripDot_append [' '] l
  simp only [List.singleton_append] at h
  rw [h]
  by_cases hl : rstripDot l = []
  · rw [if_pos hl, hl]
    decide
  · rw [if_neg hl]

theorem rstripDot_subset {c : Char} {l : List Char} (h : c ∈ rstripDot l) : c ∈ l := by
  unfold rstripDot at h
  rw [List.mem_reverse] at h
  have hs : l.reverse.dropWhile (fun c => c = '.') <:+ l.reverse :=
    List.dropWhile_suffix _
  exact List.mem_reverse.mp (hs.subset h)

theorem rstripDot_isPref (l : List Char) : rstripDot l <+: l := by
  have hs : l.reverse.dropWhile (fun c => c = '.') <:+ l.reverse :=
    List.dropWhile_suffix _
  have h2 := List.reverse_prefix.mpr hs
  rwa [List.reverse_reverse] at h2

theorem pref_head {a b : List Char} (h : a <+: b) (hne : a ≠ []) :
    a.head? = b.head? := by
  obtain ⟨t, rfl⟩ := h
  cases a with
  | nil => exact absurd rfl hne
  | cons x xs => simp

theorem strip_rstrip_words : ∀ ws, WordsGood ws →
    ∃ ws', WordsGood ws' ∧ pyStrip (rstripDot (joinSpace ws)) = joinSpace ws'
  | [], _ => ⟨[], fun w hw => absurd hw (by simp), by decide⟩
  | [w], h => by
    obtain ⟨hne, hch⟩ := h w (by simp)
    by_cases hz : rstripDot w = []
    · refine ⟨[], fun v hv => absurd hv (by simp), ?_⟩
      show pyStrip (rstripDot w) = joinSpace []
      rw [hz]
      decide
    · refine ⟨[rstripDot w], ?_, ?_⟩
      · intro v hv
        simp only [List.mem_singleton] at hv
        subst hv
        exact ⟨hz, fun c hc => hch c (rstripDot_subset hc)⟩
      · show pyStrip (rstripDot w) = joinSpace [rstripDot w]
        have hmem : ∀ c ∈ rstripDot w, pyIsSpace c = false :=
          fun c hc => hch c (rstripDot_subset hc)
        have := pyStrip_eq_self
          (fun c hc => hmem c (List.mem_of_mem_head? hc))
          (fun c hc => hmem c (List.mem_of_mem_getLast? hc))
        rw [this]
        rfl
  | w :: w1 :: ws1, h => by
    obtain ⟨hne, hch⟩ := h w (by simp)
    have hgood1 : WordsGood (w1 :: ws1) := fun v hv => h v (by simp [hv])
    have hjs_ne : joinSpace (w1 :: ws1) ≠ [] := joinSpace_ne_nil _ hgood1 (by simp)
    obtain ⟨ws2, hgood2, hIH⟩ := strip_rstrip_words (w1 :: ws1) hgood1
    set js := joinSpace (w1 :: ws1) with hjs
    set z := rstripDot js with hzdef
    have hr1 : rstripDot (w ++ ' ' :: js) = w ++ ' ' :: z := by
      rw [rstripDot_append w (' ' :: js), rstripDot_cons_space js]
      rw [if_neg (by simp)]
    have hjoin : joinSpace (w :: w1 :: ws1) = w ++ ' ' :: js := rfl
    rw [hjoin, hr1]
    -- head of `z` (a prefix of `js`) is not whitespace
    have hzhead : ∀ c, z.head? = some c → pyIsSpace c = false := by
      intro c hc
      have hpre := rstripDot_isPref js
      have hzne : z ≠ [] := by
        intro hznil
        rw [hznil] at hc
        simp at hc
      rw [pref_head hpre hzne] at hc
      exact joinSpace_head _ hgood1 c hc
    have hzdrop : z.dropWhile pyIsSpace = z := dropWhile_eq_self_of_head hzhead
    have hzstrip : z.reverse.dropWhile pyIsSpace = (pyStrip z).reverse := by
      unfold pyStrip
      rw [hzdrop, List.reverse_reverse]
    have hwvals : ∀ c, (w ++ ' ' :: z).head? = some c → pyIsSpace c = false := by
      intro c hc
      cases w with
      | nil => exact absurd rfl hne
      | cons x w' =>
        have hx : ((x :: w') ++ ' ' :: z).head? = some x := by simp
        rw [hx] at hc
        have hxc : x = c := Option.some.inj hc
        rw [← hxc]
        exact hch x (by simp)
    have hrev : (w ++ ' ' :: z).reverse = z.reverse ++ ' ' :: w.reverse := by
      simp
    have hwrev : w.reverse.dropWhile pyIsSpace = w.reverse := by
      refine dropWhile_eq_self_of_head ?_
      intro c hc
      rw [List.head?_reverse] at hc
      exact hch c (List.mem_of_mem_getLast? hc)
    unfold pyStrip
    rw [dropWhile_eq_self_of_head hwvals, hrev, List.dropWhile_append, hzstrip, hIH]
    cases ws2 with
    | nil =>
      refine ⟨[w], fun v hv => by simpa [List.mem_singleton.mp hv] using h w (by simp), ?_⟩
      rw [if_pos (by simp [joinSpace])]
      show ((' ' :: w.reverse).dropWhile pyIsSpace).reverse = joinSpace [w]
      rw [List.dropWhile_cons, if_pos (by decide), hwrev]
      simp [joinSpace]
    | cons v vs =>
      have hne2 : joinSpace (v :: vs) ≠ [] := joinSpace_ne_nil _ hgood2 (by simp)
      refine ⟨w :: v :: vs, ?_, ?_⟩
      · intro u hu
        rcases List.mem_cons.mp hu with hu | hu
        · subst hu; exact ⟨hne, hch⟩
        · exact hgood2 u hu
      · rw [if_neg (by simp [hne2])]
        rw [joinSpace_cons w (v :: vs) (by simp)]
        simp

/-- The `<i>`-child recovered text is whitespace-collapsed. -/
theorem ichildText_collapsed (ch : Node) :
    collapse (ichildText ch) = ichildText ch := by
  unfold ichildText
  have h1 : pyStrip (collapse (pyStrip (getText ch))) = collapse (pyStrip (getText ch)) :=
    collapsed_strip (collapse_idem _)
  rw [h1]
  obtain ⟨ws', hgood', heq⟩ :=
    strip_rstrip_words (pyWords (pyStrip (getText ch))) (pyWords_good _)
  have heq' : pyStrip (rstripDot (collapse (pyStrip (getText ch)))) = joinSpace ws' := heq
  rw [heq']
  exact collapse_append (collapse_joinSpace_good hgood') (by decide)

/-- All three aggregated runs are whitespace-collapsed. -/
theorem aggTexts_collapsed (t : Node) :
    collapse (aggTexts t).1 = (aggTexts t).1 ∧
    collapse (aggTexts t).2.1 = (aggTexts t).2.1 ∧
    collapse (aggTexts t).2.2 = (aggTexts t).2.2 := by
  unfold aggTexts
  generalize descTagsNL (childrenNL t) = l
  induction l using List.reverseRecOn with
  | nil => exact ⟨rfl, rfl, rfl⟩
  | append_singleton l child ih =>
    rw [List.foldl_append, List.foldl_cons, List.foldl_nil]
    set acc := l.foldl _ ([], [], []) with hacc
    obtain ⟨ih1, ih2, ih3⟩ := ih
    have hcc : collapse (collapse (pyStrip (getText child))) =
        collapse (pyStrip (getText child)) := collapse_idem _
    by_cases hb : isBoldIn (styleNorm (styleOf child)) = true
    · simp only [hb, if_true]
      split
      · exact ⟨collapse_append ih1 hcc, ih2, ih3⟩
      · exact ⟨ih1, ih2, ih3⟩
    · simp only [hb, if_false, Bool.false_eq_true]
      by_cases hi : isItalicIn (styleNorm (styleOf child)) = true
      · simp only [hi, if_true]
        split
        · exact ⟨ih1, collapse_append ih2 hcc, ih3⟩
        · exact ⟨ih1, ih2, ih3⟩
      · simp only [hi, if_false, Bool.false_eq_true]
        by_cases hu : isUnderlineIn (styleNorm (styleOf child)) = true
        · simp only [hu, if_true]
          split
          · exact ⟨ih1, ih2, collapse_append ih3 hcc⟩
          · exact ⟨ih1, ih2, ih3⟩
        · simp only [hu, if_false, Bool.false_eq_true]
          exact ⟨ih1, ih2, ih3⟩

/-! ## Concrete test documents -/

/-- A document whose "Item 1A" section is followed by a nine-word
cross-reference paragraph mentioning Item 1B and a further paragraph. -/
def c1doc : Node :=
  nd "html" "" [nd "body" "" [
    nd "p" "" [tx "Item 1A. Risk Factors"],
    nd "p" "" [tx "This very long introductory paragraph has rather more than ten words in it."],
    nd "p" "" [tx "we note as discussed in Item 1B above that"],
    nd "p" "" [tx "another paragraph comes right after it."]]]

/-- A document whose only "Item 1A" heading has its first long paragraph
exactly ten elements after it (outside the window of the code, inside
the window of the claim). -/
def c2doc : Node :=
  nd "html" "" [nd "body" "" [
    nd "p" "" [tx "Item 1A. Risk Factors"],
    nd "p" "" [tx "just filler words"],
    nd "p" "" [tx "just filler words"],
    nd "p" "" [tx "just filler words"],
    nd "p" "" [tx "just filler words"],
    nd "p" "" [tx "just filler words"],
    nd "p" "" [tx "just filler words"],
    nd "p" "" [tx "just filler words"],
    nd "p" "" [tx "just filler words"],
    nd "p" "" [tx "just filler words"],
    nd "p" "" [tx "This final paragraph easily contains more than ten words in total here."]]]

/-- A document with a table-of-contents line for Item 1A followed only by
short entries, and the true heading further down followed by content. -/
def c2tocDoc : Node :=
  nd "html" "" [nd "body" "" [
    nd "p" "" [tx "Item 1A. Risk Factors"],
    nd "p" "" [tx "14"],
    nd "p" "" [tx "short entry"],
    nd "p" "" [tx "short entry"],
    nd "p" "" [tx "short entry"],
    nd "p" "" [tx "short entry"],
    nd "p" "" [tx "short entry"],
    nd "p" "" [tx "short entry"],
    nd "p" "" [tx "short entry"],
    nd "p" "" [tx "short entry"],
    nd "p" "" [tx "Item 1A. Risk Factors"],
    nd "p" "" [tx "This genuine section body paragraph easily contains more than ten words overall."]]]

/-- A slice with an un-punctuated emphasized element. -/
def c3doc : Node :=
  nd "html" "" [nd "body" "" [
    nd "i" "" [tx "No terminal punctuation at all here"]]]

/-- The element of `c3doc` whose text lacks terminal punctuation. -/
def c3n : Node :=
  nd "i" "" [tx "No terminal punctuation at all here"]

/-- A slice with five italic candidates and two bold candidates. -/
def c4doc : Node :=
  nd "html" "" [nd "body" "" [
    nd "i" "" [tx "Italic risk number one is stated here."],
    nd "i" "" [tx "Italic risk number two is stated here."],
    nd "i" "" [tx "Italic risk number three is stated here."],
    nd "i" "" [tx "Italic risk number four is stated here."],
    nd "i" "" [tx "Italic risk number five is stated here."],
    nd "b" "" [tx "Bold risk number one is stated here."],
    nd "b" "" [tx "Bold risk number two is stated here."]]]

/-- A document text that matches the first date pattern with an
unparseable month name, and a later conformed-period line. -/
def c6doc : Node :=
  nd "html" "" [nd "body" "" [
    nd "p" "" [tx "for the fiscal year ended Banuary 12, 2019 was filed."],
    nd "p" "" [tx "Conformed period of report: 20201231"]]]

/-- A document containing "for the fiscal year ended December 31, 2019". -/
def c7doc : Node :=
  nd "html" "" [nd "body" "" [
    nd "p" "" [tx "Our annual report for the fiscal year ended December 31, 2019 follows."]]]

/-- A document with no occurrence of the Item 1A pattern at all. -/
def c8doc1 : Node :=
  nd "html" "" [nd "body" "" [
    nd "p" "" [tx "hello there friend, nothing to see in this document at all."]]]

/-- A document whose located start element itself passes the section-end
test, so the collected range is empty. -/
def c8doc2 : Node :=
  nd "html" "" [nd "body" "" [
    nd "p" "" [tx "Item 1A. see Item 1B."],
    nd "p" "" [tx "This following paragraph easily contains more than ten words in total here."]]]

/-- A slice whose single title is recovered by the `<i>`-child channel
with only two words. -/
def c9doc : Node :=
  nd "html" "" [nd "body" "" [
    nd "p" "" [nd "i" "" [tx "Two words"], tx " and some more padding."]]]

/-- A small document with a located Item 1A section. -/
def c10doc : Node :=
  nd "html" "" [nd "body" "" [
    nd "p" "" [tx "Item 1A. Risk Factors"],
    nd "p" "" [tx "This very long introductory paragraph has rather more than ten words in it."],
    nd "p" "" [tx "we note as discussed in Item 1B above that"],
    nd "p" "" [tx "Item 1B. Unresolved Staff Comments"]]]

/-! ## Lemmas: the date normalizer -/

theorem exists_of_findSome {α β : Type} (f : α → Option β) :
    ∀ (l : List α) (b : β), l.findSome? f = some b → ∃ a ∈ l, f a = some b
  | [], b => by simp
  | a :: l, b => by
    rw [List.findSome?_cons]
    cases hf : f a with
    | some c =>
      intro h
      exact ⟨a, by simp, by rw [hf]; exact h⟩
    | none =>
      intro h
      obtain ⟨x, hx, hfx⟩ := exists_of_findSome f l b h
      exact ⟨x, by simp [hx], hfx⟩

theorem mkDate_valid {y m d : Nat} {pd : PyDate} (h : mkDate y m d = some pd) :
    ValidDate pd.y pd.m pd.d := by
  unfold mkDate at h
  split at h
  · rename_i hcond
    obtain rfl : PyDate.mk y m d = pd := Option.some.inj h
    simp only [Bool.and_eq_true, decide_eq_true_eq] at hcond
    exact ⟨hcond.1.1.1.1.1, hcond.1.1.1.1.2, hcond.1.1.1.2, hcond.1.1.2,
      hcond.1.2, hcond.2⟩
  · simp at h

theorem parse8_valid {ds : List Char} {pd : PyDate} (h : parse8 ds = some pd) :
    ValidDate pd.y pd.m pd.d := by
  unfold parse8 at h
  exact mkDate_valid h

theorem parseMonthDY_valid {mons : List (List Char × Nat)} {ds : List Char}
    {pd : PyDate} (h : parseMonthDY mons ds = some pd) :
    ValidDate pd.y pd.m pd.d := by
  unfold parseMonthDY at h
  split at h
  · simp at h
  · rename_i m r1 _
    split at h
    · simp at h
    · rename_i r2 _
      obtain ⟨⟨d, r3⟩, _, hf⟩ := exists_of_findSome _ _ _ h
      dsimp only at hf
      split at hf
      · rename_i r4 _
        split at hf
        · simp at hf
        · rename_i r5 _
          cases hy : yearEnd r5 with
          | none => rw [hy] at hf; simp at hf
          | some y =>
            rw [hy] at hf
            simp only [Option.some_bind] at hf
            exact mkDate_valid hf
      · simp at hf

theorem parseDMonthY_valid {mons : List (List Char × Nat)} {ds : List Char}
    {pd : PyDate} (h : parseDMonthY mons ds = some pd) :
    ValidDate pd.y pd.m pd.d := by
  unfold parseDMonthY at h
  obtain ⟨⟨d, r1⟩, _, hf⟩ := exists_of_findSome _ _ _ h
  dsimp only at hf
  split at hf
  · simp at hf
  · rename_i r2 _
    split at hf
    · simp at hf
    · rename_i m r3 _
      split at hf
      · simp at hf
      · rename_i r4 _
        cases hy : yearEnd r4 with
        | none => rw [hy] at hf; simp at hf
        | some y =>
          rw [hy] at hf
          simp only [Option.some_bind] at hf
          exact mkDate_valid hf

theorem parseTextual_valid {ds : List Char} {pd : PyDate}
    (h : parseTextual ds = some pd) : ValidDate pd.y pd.m pd.d := by
  unfold parseTextual at h
  split at h
  · rename_i hp
    exact parseMonthDY_valid (hp.trans (congrArg some (Option.some.inj h)))
  · split at h
    · rename_i hp
      exact parseMonthDY_valid (hp.trans (congrArg some (Option.some.inj h)))
    · split at h
      · rename_i hp
        exact parseDMonthY_valid (hp.trans (congrArg some (Option.some.inj h)))
      · exact parseDMonthY_valid h

theorem dateLoop_valid : ∀ (ps : List (List Char → Option (List Char)))
    (text s : List Char), dateLoop ps text = some s →
    ∃ y m d, ValidDate y m d ∧ s = fmtDate ⟨y, m, d⟩
  | [], _, s => by simp [dateLoop]
  | p :: ps, text, s => by
    unfold dateLoop
    cases hs : searchCap p text with
    | none => exact dateLoop_valid ps text s
    | some cap =>
      dsimp only
      split
      · cases hp : parse8 (pyStrip cap) with
        | none => exact dateLoop_valid ps text s
        | some pd =>
          intro h
          obtain rfl : fmtDate pd = s := Option.some.inj h
          exact ⟨pd.y, pd.m, pd.d, parse8_valid hp, rfl⟩
      · cases hp : parseTextual (pyStrip cap) with
        | none => exact dateLoop_valid ps text s
        | some pd =>
          intro h
          obtain rfl : fmtDate pd = s := Option.some.inj h
          exact ⟨pd.y, pd.m, pd.d, parseTextual_valid hp, rfl⟩

theorem dateLoop_eq_findSome : ∀ (ps : List (List Char → Option (List Char)))
    (text : List Char),
    dateLoop ps text = ps.findSome? (fun p => patResult p text)
  | [], _ => rfl
  | p :: ps, text => by
    unfold dateLoop
    rw [List.findSome?_cons]
    have hpat : patResult p text =
        match searchCap p text with
        | none => none
        | some cap =>
          if (pyStrip cap).length = 8 && (pyStrip cap).all Char.isDigit then
            (parse8 (pyStrip cap)).map fmtDate
          else (parseTextual (pyStrip cap)).map fmtDate := rfl
    cases hs : searchCap p text with
    | none =>
      rw [hpat, hs]
      exact dateLoop_eq_findSome ps text
    | some cap =>
      rw [hpat, hs]
      dsimp only
      split
      · cases hp : parse8 (pyStrip cap) with
        | none => simpa using dateLoop_eq_findSome ps text
        | some pd => simp
      · cases hp : parseTextual (pyStrip cap) with
        | none => simpa using dateLoop_eq_findSome ps text
        | some pd => simp

/-! ## Lemmas: the section-boundary locator -/

theorem findStartAux_shift : ∀ (l : List Elem) (n : Nat),
    findStartAux l n = (findStartAux l 0).map (fun k => k + n)
  | [], n => rfl
  | e :: rest, n => by
    unfold findStartAux
    split
    · simp
    · rw [findStartAux_shift rest (n + 1), findStartAux_shift rest 1,
        Option.map_map]
      congr 1
      funext k
      simp only [Function.comp_apply]
      omega

theorem findStart_first : ∀ (l : List Elem) (i : Nat),
    findStartAux l 0 = some i ↔
      (startPred (l.drop i) = true ∧ ∀ j < i, startPred (l.drop j) = false)
  | [], i => by
    constructor
    · intro h
      simp [findStartAux] at h
    · rintro ⟨h1, _⟩
      rw [List.drop_nil] at h1
      simp [startPred] at h1
  | e :: rest, i => by
    have hpred : (startCondA (textOf e) && hasContentLoop ((e :: rest).take 10)) =
        startPred (e :: rest) := rfl
    unfold findStartAux
    rw [hpred]
    by_cases hc : startPred (e :: rest) = true
    · rw [if_pos hc]
      constructor
      · intro h
        obtain rfl : i = 0 := by
          have := Option.some.inj h
          omega
        exact ⟨by simpa using hc, fun j hj => absurd hj (by omega)⟩
      · rintro ⟨h1, h2⟩
        cases i with
        | zero => rfl
        | succ i' =>
          have := h2 0 (by omega)
          rw [List.drop_zero] at this
          rw [this] at hc
          simp at hc
    · rw [if_neg (by simpa using hc)]
      rw [findStartAux_shift rest 1]
      have hcf : startPred (e :: rest) = false := by simpa using hc
      constructor
      · intro h
        obtain ⟨i', hi', hmap⟩ := Option.map_eq_some'.mp h
        obtain ⟨hp, hall⟩ := (findStart_first rest i').mp hi'
        subst hmap
        refine ⟨by rwa [List.drop_succ_cons], ?_⟩
        intro j hj
        cases j with
        | zero => simpa using hcf
        | succ j' =>
          rw [List.drop_succ_cons]
          exact hall j' (by omega)
      · rintro ⟨h1, h2⟩
        cases i with
        | zero =>
          rw [List.drop_zero, hcf] at h1
          simp at h1
        | succ i' =>
          have hi' : findStartAux rest 0 = some i' := by
            refine (findStart_first rest i').mpr ⟨by rwa [List.drop_succ_cons] at h1, ?_⟩
            intro j hj
            have := h2 (j + 1) (by omega)
            rwa [List.drop_succ_cons] at this
          rw [hi']
          rfl

theorem collect1b_eq_takeWhile : ∀ l : List Elem,
    collect1b l = l.takeWhile (fun e => !(endCond1b (textOf e)))
  | [] => rfl
  | e :: rest => by
    unfold collect1b
    rw [List.takeWhile_cons]
    by_cases hc : endCond1b (textOf e) = true
    · rw [if_pos hc, if_neg (by simp [hc])]
    · rw [if_neg hc, if_pos (by simp [Bool.not_eq_true] at hc; simp [hc]),
        collect1b_eq_takeWhile rest]

theorem full_imp_search (tc : Char) : ∀ l : List Char,
    fullItem tc l = true → searchItem tc l = true
  | [] => by
    intro h
    have hm : matchItemAt tc [] = none := rfl
    unfold fullItem at h
    rw [hm] at h
    simp at h
  | c :: rest => by
    intro h
    unfold searchItem
    unfold fullItem at h
    cases hmm : matchItemAt tc (c :: rest) with
    | none => rw [hmm] at h; simp at h
    | some r => simp [hmm]

theorem startCondA_false_of_no_search {t : List Char}
    (h : searchItem 'a' t = false) : startCondA t = false := by
  unfold startCondA
  rw [h]
  cases hf : fullItem 'a' t with
  | true => exact absurd (full_imp_search 'a' t hf) (by simp [h])
  | false => simp

theorem findStartAux_none : ∀ (l : List Elem) (n : Nat),
    (∀ e ∈ l, startCondA (textOf e) = false) → findStartAux l n = none
  | [], _, _ => rfl
  | e :: rest, n, h => by
    unfold findStartAux
    rw [if_neg (by simp [h e (by simp)])]
    exact findStartAux_none rest (n + 1) (fun d hd => h d (by simp [hd]))

theorem assembleGo_mem (sec : List Node) : ∀ (cands : List Node)
    (seenB : List (List Char)) (b : Node), b ∈ assembleGo sec cands seenB →
    normKey b ≠ [] ∧ normKey b ∉ seenB
  | [], _, b => by simp [assembleGo]
  | c :: rest, seenB, b => by
    unfold assembleGo
    split
    · exact assembleGo_mem sec rest seenB b
    · dsimp only
      split
      · exact assembleGo_mem sec rest seenB b
      · split
        · exact assembleGo_mem sec rest seenB b
        · rename_i hsec hnk hseen
          intro hb
          rcases List.mem_cons.mp hb with hb | hb
          · subst hb
            refine ⟨by simpa [normKey] using hnk, ?_⟩
            intro hmem
            exact hseen (List.any_eq_true.mpr ⟨normKey b, hmem, by simp [normKey]⟩)
          · have := assembleGo_mem sec rest _ b hb
            refine ⟨this.1, ?_⟩
            intro hmem
            exact this.2 (by simp [hmem])

theorem assembleGo_nodup (sec : List Node) : ∀ (cands : List Node)
    (seenB : List (List Char)), ((assembleGo sec cands seenB).map normKey).Nodup
  | [], _ => by simp [assembleGo]
  | c :: rest, seenB => by
    unfold assembleGo
    split
    · exact assembleGo_nodup sec rest seenB
    · dsimp only
      split
      · exact assembleGo_nodup sec rest seenB
      · split
        · exact assembleGo_nodup sec rest seenB
        · simp only [List.map_cons, List.nodup_cons]
          refine ⟨?_, assembleGo_nodup sec rest _⟩
          intro hmem
          obtain ⟨b, hb, hbeq⟩ := List.mem_map.mp hmem
          have := (assembleGo_mem sec rest _ b hb).2
          rw [hbeq] at this
          exact this (by simp [normKey])

/-! ## Lemmas: the classifier loop as de-duplication of a raw stream -/

theorem styleChannel_eq (st : ClsState) (sn text : List Char) :
    styleChannel st sn text = emitAll st (styleAttempt sn text) := by
  unfold styleChannel styleAttempt
  by_cases hu : isUpperPy text = true
  · simp [hu, emitAll]
  · by_cases hb : isBoldIn sn = true
    · by_cases hc : text ∈ st.seen <;>
        simp [hu, hb, hc, emitAll, emitOne]
    · by_cases hi : isItalicIn sn = true
      · by_cases hc : text ∈ st.seen <;>
          simp [hu, hb, hi, hc, emitAll, emitOne]
      · by_cases hw : isUnderlineIn sn = true
        · by_cases hc : text ∈ st.seen <;>
            simp [hu, hb, hi, hw, hc, emitAll, emitOne]
        · simp [hu, hb, hi, hw, emitAll]

theorem ichildChannel_eq (st : ClsState) (t : Node) :
    ichildChannel st t = emitAll st (ichildAttempt t) := by
  unfold ichildChannel ichildAttempt
  cases hf : (childrenOf t).find? (fun c => nameOf c == "i".toList) with
  | none => simp [emitAll]
  | some ch =>
    dsimp only
    by_cases hlen : ((ichildText ch).length ≤ 1000 && (ichildText ch).length ≥ 5 &&
        (ichildText ch).length ≥ 10) = true
    · rw [if_pos hlen, if_pos hlen]
      by_cases hu : isUpperPy (ichildText ch) = true
      · simp [hu, emitAll]
      · by_cases hc : ichildText ch ∈ st.seen <;> simp [hu, hc, emitAll, emitOne]
    · rw [if_neg hlen, if_neg hlen]
      simp [emitAll]

theorem aggChannel_eq (st : ClsState) (t : Node) :
    aggChannel st t = emitAll st (aggAttempt t) := by
  obtain ⟨hcb, hci, hcu⟩ := aggTexts_collapsed t
  unfold aggChannel aggAttempt
  rcases hA : aggTexts t with ⟨fb, fi, fu⟩
  rw [hA] at hcb hci hcu
  simp only at hcb hci hcu
  have hsb : pyStrip fb = fb := collapsed_strip hcb
  have hsi : pyStrip fi = fi := collapsed_strip hci
  have hsu : pyStrip fu = fu := collapsed_strip hcu
  dsimp only
  by_cases hb : aggOk fb = true
  · rw [if_pos hb, if_pos hb]
    have hfb : fb ≠ [] := by
      intro h
      rw [h] at hb
      simp [aggOk] at hb
    by_cases hu : isUpperPy fb = true
    · simp [hu, hfb, emitAll]
    · by_cases hc : fb ∈ st.seen <;>
        simp [hu, hc, hfb, hsb, emitAll, emitOne]
  · rw [if_neg hb, if_neg hb]
    by_cases hi : aggOk fi = true
    · rw [if_pos hi, if_pos hi]
      have hfi : fi ≠ [] := by
        intro h
        rw [h] at hi
        simp [aggOk] at hi
      by_cases hu : isUpperPy fi = true
      · simp [hu, hfi, emitAll]
      · by_cases hc : fi ∈ st.seen <;>
          simp [hu, hc, hfi, hsi, emitAll, emitOne]
    · rw [if_neg hi, if_neg hi]
      by_cases hw : aggOk fu = true
      · rw [if_pos hw, if_pos hw]
        have hfu : fu ≠ [] := by
          intro h
          rw [h] at hw
          simp [aggOk] at hw
        by_cases hu : isUpperPy fu = true
        · simp [hu, hfu, emitAll]
        · by_cases hc : fu ∈ st.seen <;>
            simp [hu, hc, hfu, hsu, emitAll, emitOne]
      · rw [if_neg hw, if_neg hw]
        simp [emitAll]

theorem emitAll_append (st : ClsState) (a b : List Cand) :
    emitAll st (a ++ b) = emitAll (emitAll st a) b :=
  List.foldl_append _ _ _ _

theorem processTag_eq (st : ClsState) (t : Node) :
    processTag st t = emitAll st (tagAttempts t) := by
  unfold processTag tagAttempts
  by_cases hg : gateFails (collapse (getText t)) = true
  · simp [hg, emitAll]
  · simp only [hg, Bool.false_eq_true, if_false, if_neg]
    by_cases hn : (boldTags.contains (nameOf t) || italicTags.contains (nameOf t) ||
        underlineTags.contains (nameOf t)) = true
    · rw [if_pos hn, if_pos hn]
      unfold ownChannel
      by_cases hu : isUpperPy (collapse (getText t)) = true
      · simp [hu, emitAll]
      · by_cases hc : collapse (getText t) ∈ st.seen <;>
          simp [hu, hc, emitAll, emitOne]
    · rw [if_neg hn, if_neg hn]
      by_cases hp : pdsTags.contains (nameOf t) = true
      · rw [if_pos hp, if_pos hp]
        rw [emitAll_append, emitAll_append]
        rw [styleChannel_eq, ichildChannel_eq, aggChannel_eq]
      · rw [if_neg hp, if_neg hp]
        simp [emitAll]

theorem foldl_processTag_eq : ∀ (l : List Node) (st : ClsState),
    l.foldl processTag st = emitAll st (l.flatMap tagAttempts)
  | [], st => by simp [emitAll]
  | t :: l, st => by
    rw [List.foldl_cons, foldl_processTag_eq l (processTag st t),
      List.flatMap_cons, emitAll_append, processTag_eq]

theorem emitAll_spec : ∀ (cs : List Cand) (st : ClsState),
    emitAll st cs = ⟨seenAfter st.seen cs, st.titles ++ dedupFirst st.seen cs⟩
  | [], st => by simp [emitAll, seenAfter, dedupFirst]
  | c :: cs, st => by
    show emitAll (emitOne st c) cs = _
    unfold emitOne seenAfter dedupFirst
    by_cases hc : c.text ∈ st.seen
    · rw [if_neg (by simp [hc]), if_pos (by simp [hc]), if_pos (by simp [hc])]
      exact emitAll_spec cs st
    · rw [if_pos (by simp [hc]), if_neg (by simp [hc]), if_neg (by simp [hc])]
      rw [emitAll_spec cs ⟨c.text :: st.seen, st.titles ++ [c]⟩]
      simp

theorem titlesOf_eq_dedup (root : Node) :
    titlesOf root = dedupFirst [] (allAttempts root) := by
  unfold titlesOf allAttempts
  rw [foldl_processTag_eq, emitAll_spec]
  simp

theorem dedupFirst_subset : ∀ (cs : List Cand) (seen : List (List Char)) (c : Cand),
    c ∈ dedupFirst seen cs → c ∈ cs
  | [], _, c => by simp [dedupFirst]
  | d :: cs, seen, c => by
    unfold dedupFirst
    split
    · intro h
      exact List.mem_cons_of_mem _ (dedupFirst_subset cs seen c h)
    · intro h
      rcases List.mem_cons.mp h with h | h
      · simp [h]
      · exact List.mem_cons_of_mem _ (dedupFirst_subset cs _ c h)

theorem dedupFirst_not_seen : ∀ (cs : List Cand) (seen : List (List Char)) (c : Cand),
    c ∈ dedupFirst seen cs → seen.contains c.text = false
  | [], _, c => by simp [dedupFirst]
  | d :: cs, seen, c => by
    unfold dedupFirst
    split
    · exact dedupFirst_not_seen cs seen c
    · rename_i hns
      intro h
      rcases List.mem_cons.mp h with h | h
      · rw [h]
        simpa using hns
      · have h2 := dedupFirst_not_seen cs (d.text :: seen) c h
        simp only [List.contains_cons, Bool.or_eq_false_iff] at h2
        exact h2.2

theorem endsPunct_concat_dot (x : List Char) : endsPunct (x ++ ['.']) = true := by
  unfold endsPunct
  rw [List.getLast?_concat]
  rfl

theorem gateFails_false {text : List Char} (hg : gateFails text = false) :
    text ≠ [] ∧ text.length ≤ 1000 ∧ 5 ≤ wordCount text ∧ 10 ≤ text.length ∧
    endsPunct text = true := by
  unfold gateFails at hg
  simp only [Bool.or_eq_false_iff, decide_eq_false_iff_not, not_lt,
    Bool.not_eq_false'] at hg
  exact ⟨by simpa using hg.1.1.1.1, hg.1.1.1.2, hg.1.1.2, hg.1.2, hg.2⟩

theorem aggOk_true {ft : List Char} (h : aggOk ft = true) :
    ft ≠ [] ∧ ft.length ≤ 1000 ∧ 5 ≤ wordCount ft ∧ 10 ≤ ft.length ∧
    endsPunct ft = true := by
  unfold aggOk at h
  simp only [Bool.and_eq_true, decide_eq_true_eq, ne_eq] at h
  exact ⟨h.1.1.1.1, h.1.1.1.2, h.1.1.2, h.1.2, h.2⟩

theorem styleAttempt_good {sn text : List Char} (hcol : collapse text = text)
    (hne : text ≠ []) (hep : endsPunct text = true) (hl1 : 10 ≤ text.length)
    (hl2 : text.length ≤ 1000) : ∀ c ∈ styleAttempt sn text, GoodCand c := by
  intro c hc
  unfold styleAttempt at hc
  by_cases hu : isUpperPy text = true
  · simp [hu] at hc
  · rw [if_neg hu] at hc
    have hups : isUpperPy text = false := by simpa using hu
    split at hc
    · simp only [List.mem_singleton] at hc
      subst hc
      exact ⟨hcol, hne, hep, hups, hl1, hl2,
        Or.inl (show "b".toList ∈ boldTags by decide)⟩
    · split at hc
      · simp only [List.mem_singleton] at hc
        subst hc
        exact ⟨hcol, hne, hep, hups, hl1, hl2,
          Or.inr (Or.inl (show "i".toList ∈ italicTags by decide))⟩
      · split at hc
        · simp only [List.mem_singleton] at hc
          subst hc
          exact ⟨hcol, hne, hep, hups, hl1, hl2,
            Or.inr (Or.inr (show "u".toList ∈ underlineTags by decide))⟩
        · simp at hc

theorem ichildAttempt_good (t : Node) : ∀ c ∈ ichildAttempt t, GoodCand c := by
  intro c hc
  unfold ichildAttempt at hc
  cases hf : (childrenOf t).find? (fun c => nameOf c == "i".toList) with
  | none => rw [hf] at hc; simp at hc
  | some ch =>
    rw [hf] at hc
    dsimp only at hc
    split at hc
    · rename_i hlen
      simp only [Bool.and_eq_true, decide_eq_true_eq, ge_iff_le] at hlen
      split at hc
      · simp at hc
      · rename_i hu
        simp only [List.mem_singleton] at hc
        subst hc
        refine ⟨ichildText_collapsed ch, by simp [ichildText], ?_, by simpa using hu,
          hlen.2, hlen.1.1, Or.inr (Or.inl (show "i".toList ∈ italicTags by decide))⟩
        unfold ichildText
        exact endsPunct_concat_dot _
    · simp at hc

theorem aggAttempt_good (t : Node) : ∀ c ∈ aggAttempt t, GoodCand c := by
  intro c hc
  obtain ⟨hcb, hci, hcu⟩ := aggTexts_collapsed t
  unfold aggAttempt at hc
  rcases hA : aggTexts t with ⟨fb, fi, fu⟩
  rw [hA] at hc hcb hci hcu
  simp only at hcb hci hcu
  dsimp only at hc
  split at hc
  · rename_i hok
    obtain ⟨h1, h2, h3, h4, h5⟩ := aggOk_true hok
    split at hc
    · simp at hc
    · rename_i hu
      simp only [List.mem_singleton] at hc
      subst hc
      exact ⟨hcb, h1, h5, by simpa using hu, h4, h2,
        Or.inl (show "b".toList ∈ boldTags by decide)⟩
  · split at hc
    · rename_i hok
      obtain ⟨h1, h2, h3, h4, h5⟩ := aggOk_true hok
      split at hc
      · simp at hc
      · rename_i hu
        simp only [List.mem_singleton] at hc
        subst hc
        exact ⟨hci, h1, h5, by simpa using hu, h4, h2,
          Or.inr (Or.inl (show "i".toList ∈ italicTags by decide))⟩
    · split at hc
      · rename_i hok
        obtain ⟨h1, h2, h3, h4, h5⟩ := aggOk_true hok
        split at hc
        · simp at hc
        · rename_i hu
          simp only [List.mem_singleton] at hc
          subst hc
          exact ⟨hcu, h1, h5, by simpa using hu, h4, h2,
            Or.inr (Or.inr (show "u".toList ∈ underlineTags by decide))⟩
      · simp at hc

theorem tagAttempts_good (t : Node) : ∀ c ∈ tagAttempts t, GoodCand c := by
  intro c hc
  unfold tagAttempts at hc
  by_cases hg : gateFails (collapse (getText t)) = true
  · simp [hg] at hc
  · rw [if_neg hg] at hc
    obtain ⟨h1, h2, h3, h4, h5⟩ := gateFails_false (by simpa using hg)
    split at hc
    · rename_i hn
      split at hc
      · simp at hc
      · rename_i hu
        simp only [List.mem_singleton] at hc
        subst hc
        refine ⟨collapse_idem _, h1, h5, by simpa using hu, h4, h2, ?_⟩
        simp only [Bool.or_eq_true, List.contains_cons] at hn
        rcases hn with (hn | hn) | hn
        · exact Or.inl (by simpa using hn)
        · exact Or.inr (Or.inl (by simpa using hn))
        · exact Or.inr (Or.inr (by simpa using hn))
    · split at hc
      · rcases List.mem_append.mp hc with hc2 | hc2
        · rcases List.mem_append.mp hc2 with hc3 | hc3
          · exact styleAttempt_good (collapse_idem _) h1 h5 h4 h2 c hc3
          · exact ichildAttempt_good t c hc3
        · exact aggAttempt_good t c hc2
      · simp at hc

theorem resolve_sublist (ts : List Cand) : (resolveDominant ts).Sublist ts := by
  unfold resolveDominant
  dsimp only
  split
  · exact List.filter_sublist ts
  · split
    · exact List.filter_sublist ts
    · split
      · exact List.filter_sublist ts
      · exact List.Sublist.refl ts

theorem resolve_mem {ts : List Cand} {c : Cand} (h : c ∈ resolveDominant ts) :
    c ∈ ts :=
  (resolve_sublist ts).subset h

theorem italic_not_bold : ∀ e : List Char, italicTags.contains e = true →
    boldTags.contains e = false := by
  intro e h
  simp only [italicTags, List.contains_cons, List.contains_nil, Bool.or_false,
    Bool.or_eq_true, beq_iff_eq] at h
  rcases h with rfl | rfl <;> decide

theorem italic_not_underline : ∀ e : List Char, italicTags.contains e = true →
    underlineTags.contains e = false := by
  intro e h
  simp only [italicTags, List.contains_cons, List.contains_nil, Bool.or_false,
    Bool.or_eq_true, beq_iff_eq] at h
  rcases h with rfl | rfl <;> decide

theorem bold_not_italic : ∀ e : List Char, boldTags.contains e = true →
    italicTags.contains e = false := by
  intro e h
  simp only [boldTags, List.contains_cons, List.contains_nil, Bool.or_false,
    Bool.or_eq_true, beq_iff_eq] at h
  rcases h with rfl | rfl | rfl <;> decide

theorem bold_not_underline : ∀ e : List Char, boldTags.contains e = true →
    underlineTags.contains e = false := by
  intro e h
  simp only [boldTags, List.contains_cons, List.contains_nil, Bool.or_false,
    Bool.or_eq_true, beq_iff_eq] at h
  rcases h with rfl | rfl | rfl <;> decide

theorem underline_not_italic : ∀ e : List Char, underlineTags.contains e = true →
    italicTags.contains e = false := by
  intro e h
  simp only [underlineTags, List.contains_cons, List.contains_nil, Bool.or_false,
    Bool.or_eq_true, beq_iff_eq] at h
  rcases h with rfl <;> decide

theorem underline_not_bold : ∀ e : List Char, underlineTags.contains e = true →
    boldTags.contains e = false := by
  intro e h
  simp only [underlineTags, List.contains_cons, List.contains_nil, Bool.or_false,
    Bool.or_eq_true, beq_iff_eq] at h
  rcases h with rfl <;> decide

theorem countEmph_filter_self (tags : List (List Char)) (ts : List Cand) :
    countEmph tags (ts.filter (fun c => tags.contains c.emph)) =
    countEmph tags ts := by
  unfold countEmph
  rw [List.countP_filter]
  refine List.countP_congr ?_
  intro c _
  simp [Bool.and_self]

theorem countEmph_filter_disj (tags1 tags2 : List (List Char)) (ts : List Cand)
    (hdisj : ∀ e, tags2.contains e = true → tags1.contains e = false) :
    countEmph tags1 (ts.filter (fun c => tags2.contains c.emph)) = 0 := by
  unfold countEmph
  rw [List.countP_filter]
  refine List.countP_eq_zero.mpr ?_
  intro c _ hcontra
  simp only [Bool.and_eq_true] at hcontra
  have hd := hdisj c.emph hcontra.2
  rw [hcontra.1] at hd
  simp at hd

theorem filter_self_idem (p : Cand → Bool) (ts : List Cand) :
    (ts.filter p).filter p = ts.filter p := by
  rw [List.filter_filter]
  refine List.filter_congr ?_
  intro c _
  simp [Bool.and_self]

theorem resolve_strict_italic (ts : List Cand)
    (h1 : countEmph boldTags ts < countEmph italicTags ts)
    (h2 : countEmph underlineTags ts < countEmph italicTags ts) :
    resolveDominant ts = ts.filter (fun c => italicTags.contains c.emph) := by
  unfold resolveDominant
  rw [if_pos (by simp [h1, h2])]

theorem resolve_strict_bold (ts : List Cand)
    (h1 : countEmph italicTags ts < countEmph boldTags ts)
    (h2 : countEmph underlineTags ts < countEmph boldTags ts) :
    resolveDominant ts = ts.filter (fun c => boldTags.contains c.emph) := by
  unfold resolveDominant
  rw [if_neg (by simp; omega), if_pos (by simp [h1, h2])]

theorem resolve_strict_underline (ts : List Cand)
    (h1 : countEmph italicTags ts < countEmph underlineTags ts)
    (h2 : countEmph boldTags ts < countEmph underlineTags ts) :
    resolveDominant ts = ts.filter (fun c => underlineTags.contains c.emph) := by
  unfold resolveDominant
  rw [if_neg (by simp; omega), if_neg (by simp; omega), if_pos (by simp [h1, h2])]

theorem resolve_no_dominant (ts : List Cand)
    (h1 : ¬(countEmph boldTags ts < countEmph italicTags ts ∧
      countEmph underlineTags ts < countEmph italicTags ts))
    (h2 : ¬(countEmph italicTags ts < countEmph boldTags ts ∧
      countEmph underlineTags ts < countEmph boldTags ts))
    (h3 : ¬(countEmph italicTags ts < countEmph underlineTags ts ∧
      countEmph boldTags ts < countEmph underlineTags ts)) :
    resolveDominant ts = ts := by
  unfold resolveDominant
  rw [if_neg (by simp; omega), if_neg (by simp; omega), if_neg (by simp; omega)]

theorem resolve_idem (ts : List Cand) :
    resolveDominant (resolveDominant ts) = resolveDominant ts := by
  by_cases hi : countEmph boldTags ts < countEmph italicTags ts ∧
      countEmph underlineTags ts < countEmph italicTags ts
  · rw [resolve_strict_italic ts hi.1 hi.2]
    by_cases hz : countEmph italicTags ts = 0
    · omega
    · rw [resolve_strict_italic _
        (by rw [countEmph_filter_self, countEmph_filter_disj _ _ _ italic_not_bold]; omega)
        (by rw [countEmph_filter_self, countEmph_filter_disj _ _ _ italic_not_underline]; omega)]
      exact filter_self_idem _ ts
  · by_cases hb : countEmph italicTags ts < countEmph boldTags ts ∧
        countEmph underlineTags ts < countEmph boldTags ts
    · rw [resolve_strict_bold ts hb.1 hb.2]
      by_cases hz : countEmph boldTags ts = 0
      · omega
      · rw [resolve_strict_bold _
          (by rw [countEmph_filter_self, countEmph_filter_disj _ _ _ bold_not_italic]; omega)
          (by rw [countEmph_filter_self, countEmph_filter_disj _ _ _ bold_not_underline]; omega)]
        exact filter_self_idem _ ts
    · by_cases hu : countEmph italicTags ts < countEmph underlineTags ts ∧
          countEmph boldTags ts < countEmph underlineTags ts
      · rw [resolve_strict_underline ts hu.1 hu.2]
        by_cases hz : countEmph underlineTags ts = 0
        · omega
        · rw [resolve_strict_underline _
            (by rw [countEmph_filter_self, countEmph_filter_disj _ _ _ underline_not_italic]; omega)
            (by rw [countEmph_filter_self, countEmph_filter_disj _ _ _ underline_not_bold]; omega)]
          exact filter_self_idem _ ts
      · rw [resolve_no_dominant ts (by tauto) (by tauto) (by tauto)]
        exact resolve_no_dominant ts (by tauto) (by tauto) (by tauto)

theorem titlesOf_good (root : Node) : ∀ c ∈ titlesOf root, GoodCand c := by
  intro c hc
  rw [titlesOf_eq_dedup] at hc
  have hmem := dedupFirst_subset _ _ _ hc
  obtain ⟨t, _, hct⟩ := List.mem_flatMap.mp hmem
  exact tagAttempts_good t c hct

theorem extract_endsPunct (root : Node) :
    ∀ s ∈ extract_risk_factor_titles root, endsPunct s = true := by
  intro s hs
  obtain ⟨c, hc, rfl⟩ := List.mem_map.mp hs
  exact (titlesOf_good root c (resolve_mem hc)).2.2.1

theorem tags_wrap : ∀ cs : List Cand,
    descTagsNL (NodeL.ofList (cs.map wrapElem)) = cs.map wrapElem
  | [] => rfl
  | c :: cs => by
    show descTagsNL (NodeL.cons (wrapElem c) (NodeL.ofList (cs.map wrapElem))) = _
    show descSelf (wrapElem c) ++ descTagsNL (NodeL.ofList (cs.map wrapElem)) = _
    rw [tags_wrap cs]
    rfl

theorem getText_wrapElem {c : Cand} (hcol : collapse c.text = c.text)
    (hne : c.text ≠ []) : getText (wrapElem c) = c.text := by
  show joinSpace (((stringsOf (wrapElem c)).map pyStrip).filter (fun s => s ≠ [])) = _
  have hstr : stringsOf (wrapElem c) = [c.text] := rfl
  rw [hstr]
  simp only [List.map_cons, List.map_nil, collapsed_strip hcol]
  rw [List.filter_cons]
  rw [if_pos (by simpa using hne)]
  rfl

theorem processTag_wrapElem (st : ClsState) (c : Cand) (h : GoodCand c)
    (hwc : 5 ≤ wordCount c.text) (hns : c.text ∉ st.seen) :
    processTag st (wrapElem c) = ⟨c.text :: st.seen, st.titles ++ [c]⟩ := by
  obtain ⟨hcol, hne, hep, hup, hl1, hl2, hmem⟩ := h
  unfold processTag
  dsimp only
  rw [getText_wrapElem hcol hne, hcol]
  have hgate : gateFails c.text = false := by
    unfold gateFails
    simp only [Bool.or_eq_false_iff, decide_eq_false_iff_not, not_lt,
      Bool.not_eq_false']
    exact ⟨⟨⟨⟨by simpa using hne, by omega⟩, by omega⟩, by omega⟩, hep⟩
  rw [hgate]
  have hname : nameOf (wrapElem c) = c.emph := rfl
  have hcond : (boldTags.contains (nameOf (wrapElem c)) ||
      italicTags.contains (nameOf (wrapElem c)) ||
      underlineTags.contains (nameOf (wrapElem c))) = true := by
    rw [hname]
    rcases hmem with hm | hm | hm <;> simp [hm]
  simp only [Bool.false_eq_true, if_false, hcond, if_true]
  unfold ownChannel
  rw [if_pos (by simp [hns, hup])]
  rw [hname]

theorem fold_wrapped : ∀ (cs : List Cand) (st : ClsState),
    (∀ c ∈ cs, GoodCand c ∧ 5 ≤ wordCount c.text) →
    (∀ c ∈ cs, c.text ∉ st.seen) →
    ((cs.map Cand.text).Nodup) →
    (cs.map wrapElem).foldl processTag st =
      ⟨(cs.map Cand.text).reverse ++ st.seen, st.titles ++ cs⟩
  | [], st, _, _, _ => by simp
  | c :: cs, st, hgood, hseen, hnd => by
    rw [List.map_cons, List.foldl_cons]
    rw [processTag_wrapElem st c (hgood c (by simp)).1 (hgood c (by simp)).2
      (hseen c (by simp))]
    rw [fold_wrapped cs ⟨c.text :: st.seen, st.titles ++ [c]⟩
      (fun d hd => hgood d (by simp [hd]))
      (fun d hd => by
        simp only [List.mem_cons]
        push_neg
        refine ⟨?_, hseen d (by simp [hd])⟩
        intro heq
        have : c.text ∈ cs.map Cand.text := heq ▸ List.mem_map_of_mem _ hd
        simp only [List.map_cons, List.nodup_cons] at hnd
        exact hnd.1 this)
      (by simp only [List.map_cons, List.nodup_cons] at hnd; exact hnd.2)]
    simp

theorem dedupFirst_nodup : ∀ (cs : List Cand) (seen : List (List Char)),
    ((dedupFirst seen cs).map Cand.text).Nodup
  | [], _ => by simp [dedupFirst]
  | d :: cs, seen => by
    unfold dedupFirst
    split
    · exact dedupFirst_nodup cs seen
    · simp only [List.map_cons, List.nodup_cons]
      refine ⟨?_, dedupFirst_nodup cs (d.text :: seen)⟩
      intro hmem
      obtain ⟨c, hc, hceq⟩ := List.mem_map.mp hmem
      have h2 := dedupFirst_not_seen cs (d.text :: seen) c hc
      simp only [List.contains_cons, Bool.or_eq_false_iff] at h2
      have := h2.1
      rw [hceq] at this
      simp at this

theorem extract_nodup (root : Node) : (extract_risk_factor_titles root).Nodup := by
  unfold extract_risk_factor_titles
  have h1 : ((titlesOf root).map Cand.text).Nodup := by
    rw [titlesOf_eq_dedup]
    exact dedupFirst_nodup _ _
  exact h1.sublist ((resolve_sublist (titlesOf root)).map Cand.text)

/-! ## The claims -/

/-- C1: the section-end rule.  The general sentence of the claim matches the
code — the section is the maximal prefix of the elements from the start
onwards whose members do not satisfy the end test (`item 1b` match with
fewer than 10 words), the terminating element excluded — and the
"Item 1B. Unresolved Staff Comments" heading does terminate the section;
but the second example of the claim is wrong on the code: a paragraph needs at
least TEN words (not nine) to survive; amended accordingly, a ten-word
paragraph containing "as discussed in Item 1B above" does not terminate
the section. -/
theorem C1_end_detection :
    (∀ (root : Node) (k : Nat), findStartAux (docElems root) 0 = some k →
      sectionTagsOf root =
        ((docElems root).drop k).takeWhile (fun e => !(endCond1b (textOf e)))) ∧
    endCond1b "Item 1B. Unresolved Staff Comments".toList = true ∧
    endCond1b "we further note as discussed in Item 1B above that".toList = false := by
  refine ⟨?_, by decide, by decide⟩
  intro root k h
  unfold sectionTagsOf
  rw [h]
  show collect1b ((docElems root).drop k) = _
  rw [collect1b_eq_takeWhile]

/-- C1 witness: the general part of `C1_end_detection` applied to a
concrete document whose start is at element index 1. -/
theorem C1_end_detection_witness :
    sectionTagsOf c1doc =
      ((docElems c1doc).drop 1).takeWhile (fun e => !(endCond1b (textOf e))) :=
  C1_end_detection.1 c1doc 1 (by decide)

/-- C1 counterexample: in `c1doc` the nine-word paragraph
"we note as discussed in Item 1B above that" matches the `item 1b`
pattern, has nine words, and terminates the section — the collected
section stops right before it, contradicting the claim that a paragraph
of 9 or more words does not terminate the section. -/
theorem C1_counterexample :
    searchItem 'b' "we note as discussed in Item 1B above that".toList = true ∧
    wordCount "we note as discussed in Item 1B above that".toList = 9 ∧
    findStartAux (docElems c1doc) 0 = some 1 ∧
    ((docElems c1doc).map textOf)[3]? =
      some "we note as discussed in Item 1B above that".toList ∧
    (sectionTagsOf c1doc).map textOf =
      ["Item 1A. Risk Factors".toList,
       "This very long introductory paragraph has rather more than ten words in it.".toList] := by
  refine ⟨by decide, by decide, by decide, by decide, by decide⟩

/-- C2: the section-start rule.  Condition (a) is as claimed, and the
first element in document order passing the full test is taken (the
characterization below), so a table-of-contents line failing the content
condition is skipped in favour of the true heading (`c2tocDoc`); but the
content window is `elements[i : i+10]` — the candidate element itself and
the NINE following elements, not "the next 10 elements following it"
(`startPred` reads the window off the suffix that starts at the candidate
itself). -/
theorem C2_start_detection :
    (∀ (l : List Elem) (i : Nat), findStartAux l 0 = some i ↔
      (startPred (l.drop i) = true ∧ ∀ j < i, startPred (l.drop j) = false)) ∧
    findStartAux (docElems c2tocDoc) 0 = some 11 := by
  exact ⟨findStart_first, by decide⟩

/-- C2 witness: the characterization of `C2_start_detection` applied to a
concrete document, locating the true heading behind the TOC line. -/
theorem C2_start_detection_witness :
    findStartAux (docElems c2tocDoc) 0 = some 11 :=
  (C2_start_detection.1 (docElems c2tocDoc) 11).mpr ⟨by decide, by decide⟩

/-- C2 counterexample: in `c2doc` the heading at element index 1
satisfies the conditions of the claim — pattern match plus a long element
among the next 10 elements following it — and nothing earlier does, yet
the code finds no start at all (its window starts at the element itself,
so the long element at distance 10 is outside it). -/
theorem C2_counterexample :
    claimStartPred (docElems c2doc) 1 = true ∧
    (∀ j < 1, claimStartPred (docElems c2doc) j = false) ∧
    findStartAux (docElems c2doc) 0 = none ∧
    get_item_1a c2doc = [] := by
  refine ⟨by decide, by decide, by decide, by decide⟩

/-- C3: an element of the slice whose normalized flattened text does not
end in ':' or '.' never contributes that text to the classifier's output,
whatever its emphasis: every output string ends in ':' or '.'. -/
theorem C3_punctuation_filter (root : Node) (n : Node)
    (hmem : n ∈ descTagsNL (childrenNL root))
    (hpunct : endsPunct (collapse (getText n)) = false) :
    collapse (getText n) ∉ extract_risk_factor_titles root := by
  intro hout
  have := extract_endsPunct root _ hout
  rw [hpunct] at this
  exact absurd this (by simp)

/-- C3 witness: the italic element of `c3doc` with no terminal
punctuation is excluded from the output. -/
theorem C3_punctuation_filter_witness :
    collapse (getText c3n) ∉ extract_risk_factor_titles c3doc :=
  C3_punctuation_filter c3doc c3n (by decide) (by decide)

/-- C4: dominant-style resolution.  If the candidate count of one emphasis
kind strictly exceeds both others, only its candidates are kept; if the
top counts are tied (two kinds sharing the maximum), the candidate list
is returned unfiltered; and the slice `c4doc` with five italic and two
bold candidates yields exactly the five italic titles. -/
theorem C4_dominant_style :
    (∀ ts : List Cand, countEmph boldTags ts < countEmph italicTags ts →
      countEmph underlineTags ts < countEmph italicTags ts →
      resolveDominant ts = ts.filter (fun c => italicTags.contains c.emph)) ∧
    (∀ ts : List Cand, countEmph italicTags ts < countEmph boldTags ts →
      countEmph underlineTags ts < countEmph boldTags ts →
      resolveDominant ts = ts.filter (fun c => boldTags.contains c.emph)) ∧
    (∀ ts : List Cand, countEmph italicTags ts < countEmph underlineTags ts →
      countEmph boldTags ts < countEmph underlineTags ts →
      resolveDominant ts = ts.filter (fun c => underlineTags.contains c.emph)) ∧
    (∀ ts : List Cand,
      ((countEmph italicTags ts = countEmph boldTags ts ∧
          countEmph underlineTags ts ≤ countEmph italicTags ts) ∨
        (countEmph italicTags ts = countEmph underlineTags ts ∧
          countEmph boldTags ts ≤ countEmph italicTags ts) ∨
        (countEmph boldTags ts = countEmph underlineTags ts ∧
          countEmph italicTags ts ≤ countEmph boldTags ts)) →
      resolveDominant ts = ts) ∧
    extract_risk_factor_titles c4doc =
      ["Italic risk number one is stated here.".toList,
       "Italic risk number two is stated here.".toList,
       "Italic risk number three is stated here.".toList,
       "Italic risk number four is stated here.".toList,
       "Italic risk number five is stated here.".toList] := by
  refine ⟨resolve_strict_italic, resolve_strict_bold, resolve_strict_underline,
    ?_, by decide⟩
  intro ts h
  rcases h with ⟨h1, h2⟩ | ⟨h1, h2⟩ | ⟨h1, h2⟩ <;>
    exact resolve_no_dominant ts (by omega) (by omega) (by omega)

/-- C4 witness: the strict-italic part of `C4_dominant_style` applied to
a concrete two-candidate list. -/
theorem C4_dominant_style_witness :
    resolveDominant [⟨"An italic example title here.".toList, "i".toList⟩] =
      ([⟨"An italic example title here.".toList, "i".toList⟩] : List Cand).filter
        (fun c => italicTags.contains c.emph) :=
  C4_dominant_style.1 _ (by decide) (by decide)

/-- C5: the classifier's output never contains two equal strings, and it
is exactly the first-occurrence de-duplication of the raw candidate
stream of the slice (in traversal order), then dominant-style filtered —
so a duplicate is suppressed at its later occurrence and the survivors
keep their first-occurrence order. -/
theorem C5_dedup_order (root : Node) :
    (extract_risk_factor_titles root).Nodup ∧
    extract_risk_factor_titles root =
      (resolveDominant (dedupFirst [] (allAttempts root))).map Cand.text := by
  refine ⟨extract_nodup root, ?_⟩
  unfold extract_risk_factor_titles
  rw [titlesOf_eq_dedup]

/-- C6: amended pattern-priority rule.  The result comes from the first
pattern in the priority list whose search capture also PARSES as a date;
a pattern that matches but fails to parse is skipped and later patterns
are consulted (`List.findSome?` over the per-pattern results). -/
theorem C6_pattern_priority (root : Node) :
    extract_reporting_date root =
      datePatterns.findSome? (fun p => patResult p (subWs (getText root))) :=
  dateLoop_eq_findSome datePatterns _

/-- C6 counterexample: in `c6doc` the search of the first pattern succeeds
(capturing "Banuary 12, 2019", which fails to parse, so the pattern
derives no date), yet the extractor goes on and returns the date of the
sixth pattern — refuting the claim that the search stops with the first
pattern that matches. -/
theorem C6_counterexample :
    (searchCap patFiscalEndedTxt (subWs (getText c6doc))).isSome = true ∧
    patResult patFiscalEndedTxt (subWs (getText c6doc)) = none ∧
    extract_reporting_date c6doc = some "12/31/2020".toList := by
  refine ⟨by decide, by decide, by decide⟩

/-- C7: every date the normalizer returns is a calendar date validated by
the parsing step, formatted month/day/year without zero padding; and the
fiscal-year-ended example yields "12/31/2019". -/
theorem C7_date_format :
    (∀ (root : Node) (s : List Char), extract_reporting_date root = some s →
      ∃ y m d, ValidDate y m d ∧ s = fmtDate ⟨y, m, d⟩) ∧
    extract_reporting_date c7doc = some "12/31/2019".toList := by
  refine ⟨?_, by decide⟩
  intro root s h
  exact dateLoop_valid datePatterns _ s h

/-- C7 witness: the validity statement applied to `c7doc`. -/
theorem C7_date_format_witness :
    ∃ y m d, ValidDate y m d ∧ "12/31/2019".toList = fmtDate ⟨y, m, d⟩ :=
  C7_date_format.1 c7doc _ C7_date_format.2

/-- C8: when the text of no element matches the section-start pattern the
locator returns the empty result (it never throws — the embedding is
total); and when a start is found but the collected range is empty it
also returns the empty result rather than a degenerate section. -/
theorem C8_not_found :
    (∀ root : Node, (∀ e ∈ docElems root, searchItem 'a' (textOf e) = false) →
      get_item_1a root = []) ∧
    (∀ (root : Node) (k : Nat), findStartAux (docElems root) 0 = some k →
      collect1b ((docElems root).drop k) = [] → get_item_1a root = []) := by
  constructor
  · intro root h
    have hn : findStartAux (docElems root) 0 = none :=
      findStartAux_none _ 0 (fun e he => startCondA_false_of_no_search (h e he))
    have hempty : sectionTagsOf root = [] := by
      unfold sectionTagsOf
      rw [hn]
    unfold get_item_1a
    rw [hempty]
  · intro root k h1 h2
    have hempty : sectionTagsOf root = [] := by
      unfold sectionTagsOf
      rw [h1]
      exact h2
    unfold get_item_1a
    rw [hempty]

/-- C8 witness: both parts applied to concrete documents — one with no
pattern occurrence, one whose start element itself ends the section. -/
theorem C8_not_found_witness :
    get_item_1a c8doc1 = [] ∧ get_item_1a c8doc2 = [] :=
  ⟨C8_not_found.1 c8doc1 (by decide), C8_not_found.2 c8doc2 1 (by decide) (by decide)⟩

/-- C9: amended idempotence.  Re-running the classifier on its own
already-filtered output (each title wrapped in an element of its recorded
emphasis kind) reproduces the output, PROVIDED every output title has at
least the minimum word count of 5 — titles recovered by the `<i>`-child
channel may be shorter and are dropped by a re-run. -/
theorem C9_idempotence (root : Node)
    (hwc : ∀ s ∈ extract_risk_factor_titles root, 5 ≤ wordCount s) :
    extract_risk_factor_titles (wrapTitles (resolveDominant (titlesOf root))) =
      extract_risk_factor_titles root := by
  set R := resolveDominant (titlesOf root) with hR
  have hout : extract_risk_factor_titles root = R.map Cand.text := rfl
  have hgood : ∀ c ∈ R, GoodCand c ∧ 5 ≤ wordCount c.text := by
    intro c hc
    refine ⟨titlesOf_good root c (resolve_mem (hR ▸ hc)), ?_⟩
    refine hwc c.text ?_
    rw [hout]
    exact List.mem_map_of_mem _ hc
  have hnd : (R.map Cand.text).Nodup := by
    have h1 : ((titlesOf root).map Cand.text).Nodup := by
      rw [titlesOf_eq_dedup]
      exact dedupFirst_nodup _ _
    rw [hR]
    exact h1.sublist ((resolve_sublist (titlesOf root)).map Cand.text)
  have htags : descTagsNL (childrenNL (wrapTitles R)) = R.map wrapElem := by
    show descTagsNL (NodeL.ofList (R.map wrapElem)) = _
    exact tags_wrap R
  have htit : titlesOf (wrapTitles R) = R := by
    show ((descTagsNL (childrenNL (wrapTitles R))).foldl processTag ⟨[], []⟩).titles = R
    rw [htags, fold_wrapped R ⟨[], []⟩ hgood (fun c _ => by simp) hnd]
    simp
  show (resolveDominant (titlesOf (wrapTitles R))).map Cand.text = _
  rw [htit, hout, hR, resolve_idem]

/-- C9 witness: the amended idempotence applied to `c4doc`, all of whose
titles have at least five words. -/
theorem C9_idempotence_witness :
    extract_risk_factor_titles (wrapTitles (resolveDominant (titlesOf c4doc))) =
      extract_risk_factor_titles c4doc :=
  C9_idempotence c4doc (by decide)

/-- C9 counterexample: the only title of `c9doc`, "Two words.", comes from the
`<i>`-child recovery channel with two words; re-running the classifier on
the wrapped output yields nothing, so the re-run does NOT reproduce the
titles of the first run. -/
theorem C9_counterexample :
    extract_risk_factor_titles c9doc = ["Two words.".toList] ∧
    extract_risk_factor_titles (wrapTitles (resolveDominant (titlesOf c9doc))) = [] := by
  refine ⟨by decide, by decide⟩

/-- C10: slice-assembly de-duplication.  Among the emitted blocks no two
share the same lowercased whitespace-collapsed flattened text (the
de-duplication key is case-insensitive), no block with an empty
normalized text is emitted, and every non-empty result is the blocks
joined and wrapped in a single enclosing `div`. -/
theorem C10_assembly (root : Node) :
    ((itemBlocks root).map normKey).Nodup ∧
    (∀ b ∈ itemBlocks root, normKey b ≠ []) ∧
    (get_item_1a root ≠ [] → get_item_1a root = wrapDiv (itemBlocks root)) := by
  refine ⟨?_, ?_, ?_⟩
  · unfold itemBlocks
    split
    · simp
    · exact assembleGo_nodup _ _ _
  · unfold itemBlocks
    split
    · simp
    · intro b hb
      exact (assembleGo_mem _ _ _ b hb).1
  · intro hne
    unfold get_item_1a itemBlocks
    unfold get_item_1a at hne
    split
    · rename_i heq
      rw [heq] at hne
      exact absurd rfl hne
    · rfl

/-- C10 witness: the wrap equation applied to `c10doc`, whose section is
located and non-empty. -/
theorem C10_assembly_witness :
    get_item_1a c10doc = wrapDiv (itemBlocks c10doc) :=
  (C10_assembly c10doc).2.2 (by decide)

end RFD
